import Mathlib

/-!
Shallow embedding of the watermelon merge game in `synthesis_watermelon.py`.

The simulation core is embedded as follows.

* A float coordinate is a `Coord`: either a finite rational or the non-finite
  marker `nonfin` (NaN and the infinities collapsed; every comparison the
  source performs on a non-finite value is uniformly false, which the
  embedding reproduces).
* A `Watermelon` carries the game-level attributes of a piece
  (`id`, `level`, `radius`, `state`, `merged`, `pos`).  Python identifies
  pieces by object identity; the embedding gives each constructed piece a
  fresh numeric `id` drawn from the game's `nextId` counter, which is
  threaded through restarts so that ids are unique across a whole run.
* The pymunk space is modelled by the list `Game.space` of ids whose
  body/shape pair is currently registered, plus an environment `Env` that
  stands for one opaque `space.step` call: it chooses the post-step position
  of every registered body and the list of piece/piece contacts whose
  `begin` callback fires during the step.  The collision callback itself
  (level equality, `merged` flags, non-`WAITING` states, flagging and
  enqueueing) is embedded exactly.
* One iteration of `Game.run`'s loop is the function `frame`:
  input handling, then (unless game over) `_update` followed by
  `Physics.step`.  `Reachable` is the set of frame-boundary states of a run.
-/

/-- Arena width in pixels (`WIDTH = 600`). -/
def WIDTH : ℚ := 600

/-- Arena height in pixels (`HEIGHT = 800`). -/
def HEIGHT : ℚ := 800

/-- Maximum piece level (`MAX_LEVEL = 10`). -/
def MAX_LEVEL : Nat := 10

/-- Cooldown after a release, in seconds (`COOLDOWN_TIME = 1`). -/
def COOLDOWN_TIME : ℚ := 1

/-- Target frame rate (`FPS = 60`); each frame advances time by `1 / FPS`. -/
def FPS : ℚ := 60

/-- One float coordinate: a finite rational, or the non-finite marker. -/
inductive Coord where
  | fin (q : ℚ)
  | nonfin
  deriving DecidableEq

/-- `math.isfinite` on a coordinate. -/
def Coord.isFin : Coord → Bool
  | .fin _ => true
  | .nonfin => false

/-- The rational carried by a finite coordinate (0 for `nonfin`; every use
site has already established finiteness). -/
def Coord.q : Coord → ℚ
  | .fin x => x
  | .nonfin => 0

/-- Adding a finite float to a coordinate (`position += (d, 0)` style);
non-finite absorbs, as in float arithmetic. -/
def Coord.add (c : Coord) (d : ℚ) : Coord :=
  match c with
  | .fin x => .fin (x + d)
  | .nonfin => .nonfin

/-- Coordinate midpoint `(a + b) / 2`; non-finite operands give a
non-finite result. -/
def Coord.mid : Coord → Coord → Coord
  | .fin a, .fin b => .fin ((a + b) / 2)
  | _, _ => .nonfin

/-- A 2-D position. -/
structure Pos where
  x : Coord
  y : Coord
  deriving DecidableEq

/-- Both coordinates finite. -/
def Pos.finite (p : Pos) : Bool := p.x.isFin && p.y.isFin

/-- Piece lifecycle state: `WAITING, MOVING, STOPPED = 0, 1, 2`
(`STOPPED` is never assigned by the source). -/
inductive WMState where
  | waiting
  | moving
  | stopped
  deriving DecidableEq

/-- `Watermelon._calculate_radius`: `45 + (self.level - 1) * 8`,
computed from the already-clamped level. -/
def calcRadius (level : Nat) : ℚ := 45 + ((level : ℚ) - 1) * 8

/-- A piece.  `id` stands for Python object identity. -/
structure Watermelon where
  id : Nat
  level : Nat
  radius : ℚ
  state : WMState
  merged : Bool
  pos : Pos
  deriving DecidableEq

/-- `Watermelon.__init__`: clamp the level to `MAX_LEVEL`, derive the
radius, record the state, clear the merge flag. -/
def mkWatermelon (pos : Pos) (level : Nat) (st : WMState) (i : Nat) : Watermelon :=
  let lv := min level MAX_LEVEL
  { id := i, level := lv, radius := calcRadius lv, state := st, merged := false, pos := pos }

/-- `Watermelon.convert_to_dynamic`: only acts on a `WAITING` piece, which
becomes `MOVING` at the same position (the body swap itself carries no
further game-visible state). -/
def convertToDynamic (wm : Watermelon) : Watermelon :=
  if wm.state = .waiting then { wm with state := .moving } else wm

/-- `Watermelon.update`: recenter to `(WIDTH // 2, HEIGHT // 2)` when the
position is non-finite; a `WAITING` piece is then clamped horizontally to
`[radius, WIDTH - radius]` and pinned to `y = 50`. -/
def Watermelon.update (wm : Watermelon) : Watermelon :=
  let p := if wm.pos.finite then wm.pos else ⟨.fin 300, .fin 400⟩
  if wm.state = .waiting then
    { wm with pos := ⟨.fin (max wm.radius (min p.x.q (WIDTH - wm.radius))), .fin 50⟩ }
  else
    { wm with pos := p }

/-- `Game._check_collision`: `hypot(dx, dy) < (r1 + r2) * 0.9`, expressed
with squares (the radii are positive).  Non-finite positions make the float
comparison false, exactly as NaN/infinity do in the source. -/
def checkCollision (a b : Watermelon) : Bool :=
  match a.pos.x, a.pos.y, b.pos.x, b.pos.y with
  | .fin ax, .fin ay, .fin bx, .fin bz =>
      decide ((ax - bx) ^ 2 + (ay - bz) ^ 2 < ((a.radius + b.radius) * (9 / 10)) ^ 2)
  | _, _, _, _ => false

/-- The full game state at a frame boundary. -/
structure Game where
  watermelons : List Watermelon
  space : List Nat
  mergePairs : List (Nat × Nat)
  waitingId : Nat
  score : Nat
  gameOver : Bool
  cooldown : ℚ
  canSpawn : Bool
  nextId : Nat
  deriving DecidableEq

/-- Resolve a Python object reference: the list entry with the given id. -/
def lookupId (l : List Watermelon) (i : Nat) : Option Watermelon :=
  l.find? fun wm => wm.id == i

/-- `Game.__init__` (also run on restart): one fresh `WAITING` level-1
piece at `(WIDTH // 2, 50)`; its kinematic body is NOT added to the pymunk
space.  `n` continues the id counter so that pieces of different runs stay
distinct objects. -/
def initGameFrom (n : Nat) : Game :=
  { watermelons := [mkWatermelon ⟨.fin 300, .fin 50⟩ 1 .waiting n]
    space := []
    mergePairs := []
    waitingId := n
    score := 1
    gameOver := false
    cooldown := 0
    canSpawn := true
    nextId := n + 1 }

/-- The state right after `Game()` at process start. -/
def initGame : Game := initGameFrom 0

/-- `self.waiting_wm.state == WAITING`, read through the reference: if the
referenced object is no longer in the live list it was consumed by a merge,
which only ever happens to non-`WAITING` pieces, so the test is false. -/
def waitingIsWaiting (g : Game) : Bool :=
  match lookupId g.watermelons g.waitingId with
  | some wm => wm.state == WMState.waiting
  | none => false

/-- `Game._release_wm`. -/
def releaseWm (g : Game) : Game :=
  match lookupId g.watermelons g.waitingId with
  | none => g
  | some wwm =>
    if ¬g.canSpawn ∨ wwm.state ≠ .waiting then g
    else if g.watermelons.any (fun wm => wm.id != g.waitingId && checkCollision wm wwm) then
      { g with gameOver := true }
    else
      { g with
        watermelons := g.watermelons.map fun wm =>
          if wm.id = g.waitingId then convertToDynamic wm else wm
        space := g.space ++ [g.waitingId]
        canSpawn := false
        cooldown := COOLDOWN_TIME }

/-- A keyboard event the core reacts to: `K_DOWN`/`K_SPACE` (`drop`) or
`K_r` (`reset`).  `pygame.QUIT` exits the process and ends the run, so it
is not a frame event. -/
inductive GEvent where
  | drop
  | reset
  deriving DecidableEq

/-- One frame's input: the polled event list plus the held arrow keys. -/
structure Input where
  events : List GEvent
  left : Bool
  right : Bool

/-- One step of the event loop in `Game._handle_input`. -/
def evStep (g : Game) (ev : GEvent) : Game :=
  match ev with
  | .reset => if g.gameOver then initGameFrom g.nextId else g
  | .drop => if g.gameOver then g else releaseWm g

/-- Horizontal nudge of the waiting piece (`position -= (5, 0)` etc.). -/
def moveWaiting (d : ℚ) (g : Game) : Game :=
  { g with watermelons := g.watermelons.map fun wm =>
      if wm.id = g.waitingId then { wm with pos := ⟨wm.pos.x.add d, wm.pos.y⟩ } else wm }

/-- The held-keys part of `Game._handle_input`. -/
def handleKeys (inp : Input) (g : Game) : Game :=
  if g.gameOver = false ∧ waitingIsWaiting g then
    let g1 := if inp.left then moveWaiting (-5) g else g
    if inp.right then moveWaiting 5 g1 else g1
  else g

/-- `Game._handle_input`: fold the event queue, then apply held keys. -/
def handleInput (inp : Input) (g : Game) : Game :=
  handleKeys inp (inp.events.foldl evStep g)

/-- One entry of `Game._process_merges`' loop body, for the candidate pair
`p` (ids of the two referenced pieces). -/
def processPair (g : Game) (p : Nat × Nat) : Game :=
  match lookupId g.watermelons p.1, lookupId g.watermelons p.2 with
  | some w1, some w2 =>
      let newPos : Pos := ⟨Coord.mid w1.pos.x w2.pos.x, Coord.mid w1.pos.y w2.pos.y⟩
      let newLevel := w1.level + 1
      let newWm := mkWatermelon newPos newLevel .moving g.nextId
      { watermelons :=
          ((g.watermelons.eraseP fun wm => wm.id == p.1).eraseP fun wm => wm.id == p.2)
            ++ [newWm]
        space := ((g.space.erase p.1).erase p.2) ++ [g.nextId]
        mergePairs := g.mergePairs.erase p
        waitingId := g.waitingId
        score := max g.score newLevel
        gameOver := g.gameOver
        cooldown := g.cooldown
        canSpawn := g.canSpawn
        nextId := g.nextId + 1 }
  | _, _ => g

/-- `Game._process_merges`: iterate over a snapshot of `merge_pairs`;
pairs whose pieces are both still live are resolved and removed from the
live `merge_pairs` list, other pairs are left in place. -/
def processMerges (g : Game) : Game :=
  g.mergePairs.foldl processPair g

/-- The cooldown/spawn block at the top of `Game._update`. -/
def spawnStage (g : Game) : Game :=
  if g.canSpawn then g
  else
    let c := g.cooldown - 1 / FPS
    if c ≤ 0 then
      let newWm := mkWatermelon ⟨.fin 300, .fin 50⟩ 1 .waiting g.nextId
      if g.watermelons.all (fun wm => !checkCollision newWm wm) then
        { g with
          cooldown := c
          canSpawn := true
          watermelons := g.watermelons ++ [newWm]
          waitingId := g.nextId
          nextId := g.nextId + 1 }
      else
        { g with cooldown := c, canSpawn := true, gameOver := true }
    else { g with cooldown := c }

/-- The per-piece `wm.update()` loop of `Game._update`. -/
def updateStage (g : Game) : Game :=
  { g with watermelons := g.watermelons.map Watermelon.update }

/-- `Game._update`: cooldown/spawn logic, per-piece `update`, then merge
resolution. -/
def gameUpdate (g : Game) : Game :=
  processMerges (updateStage (spawnStage g))

/-- One opaque `space.step` call: the post-step position of every body
still registered, and the contact pairs whose `begin` callback fires.
pymunk only reports contacts between two registered shapes, and the two
shapes of an arbiter are distinct objects, hence belong to distinct
pieces. -/
structure Env where
  newPos : Nat → Pos
  collisions : List (Nat × Nat)

/-- Keep a body during the non-finite scan of `Physics.step`?  The body
position is stored on its piece. -/
def finitePosOk (g : Game) (i : Nat) : Bool :=
  match lookupId g.watermelons i with
  | some wm => wm.pos.finite
  | none => true

/-- The collision handler installed by `Game._init_collision_handler`,
fired for one begin contact: equal levels, neither merged, neither
`WAITING` — then flag both pieces and enqueue the pair. -/
def collide (g : Game) (p : Nat × Nat) : Game :=
  if p.1 ≠ p.2 ∧ p.1 ∈ g.space ∧ p.2 ∈ g.space then
    match lookupId g.watermelons p.1, lookupId g.watermelons p.2 with
    | some w1, some w2 =>
        if w1.level = w2.level ∧ w1.merged = false ∧ w2.merged = false
            ∧ w1.state ≠ .waiting ∧ w2.state ≠ .waiting then
          { g with
            watermelons := g.watermelons.map fun wm =>
              if wm.id = p.1 ∨ wm.id = p.2 then { wm with merged := true } else wm
            mergePairs := g.mergePairs ++ [p] }
        else g
    | _, _ => g
  else g

/-- The non-finite-position scan at the top of `Physics.step`. -/
def evictStage (g : Game) : Game :=
  { g with space := g.space.filter (finitePosOk g) }

/-- All begin callbacks fired during one `space.step`. -/
def collideStage (e : Env) (g : Game) : Game :=
  e.collisions.foldl collide g

/-- The integration part of `space.step`: every registered body gets its
environment-chosen post-step position; unregistered pieces do not move. -/
def moveStage (e : Env) (g : Game) : Game :=
  { g with watermelons := g.watermelons.map fun wm =>
      if wm.id ∈ g.space then { wm with pos := e.newPos wm.id } else wm }

/-- `Physics.step`: evict bodies with non-finite positions, fire the
begin callbacks, then integrate. -/
def physicsStep (e : Env) (g : Game) : Game :=
  moveStage e (collideStage e (evictStage g))

/-- One iteration of `Game.run`'s loop: `_handle_input`, then — unless the
game is over — `_update` followed by `Physics.step`. -/
def frame (e : Env) (inp : Input) (g : Game) : Game :=
  let g1 := handleInput inp g
  if g1.gameOver then g1 else physicsStep e (gameUpdate g1)

/-- The frame-boundary states of a run started at process start. -/
inductive Reachable : Game → Prop where
  | init : Reachable initGame
  | step (e : Env) (inp : Input) {g : Game} : Reachable g → Reachable (frame e inp g)

/-! ### Basic facts about the embedding -/

theorem lookupId_eq_some (l : List Watermelon) (i : Nat) (wm : Watermelon)
    (h : lookupId l i = some wm) : wm ∈ l ∧ wm.id = i := by
  have hmem := List.mem_of_find?_eq_some h
  have hp := List.find?_some h
  exact ⟨hmem, by simpa using hp⟩

theorem lookupId_of_mem (l : List Watermelon) (wm : Watermelon)
    (hn : (l.map Watermelon.id).Nodup) (h : wm ∈ l) :
    lookupId l wm.id = some wm := by
  induction l with
  | nil => cases h
  | cons a t ih =>
      simp only [List.map_cons, List.nodup_cons] at hn
      rcases List.mem_cons.mp h with rfl | ht
      · simp [lookupId]
      · have hne : (a.id == wm.id) = false := by
          refine beq_eq_false_iff_ne.mpr ?_
          intro he
          exact hn.1 (he ▸ List.mem_map_of_mem Watermelon.id ht)
        have := ih hn.2 ht
        simpa [lookupId, List.find?, hne] using this

/-! ### C10: the radius function -/

/-- C10: a piece created at level `L ∈ [1,10]` has radius `45 + (L-1)*8`;
the radius depends only on the level (determinism), and it is strictly
increasing in the level. -/
theorem radius_of_level (p p₁ p₂ : Pos) (st st₁ st₂ : WMState) (i i₁ i₂ L L' : Nat)
    (hL : 1 ≤ L) (hL10 : L ≤ 10) (hLt : L < L') (hL'10 : L' ≤ 10) :
    (mkWatermelon p L st i).radius = 45 + ((L : ℚ) - 1) * 8
      ∧ (mkWatermelon p₁ L st₁ i₁).radius = (mkWatermelon p L st i).radius
      ∧ (mkWatermelon p L st i).radius < (mkWatermelon p₂ L' st₂ i₂).radius := by
  have hmin : min L MAX_LEVEL = L := Nat.min_eq_left (by simpa [MAX_LEVEL] using hL10)
  have hmin' : min L' MAX_LEVEL = L' := Nat.min_eq_left (by simpa [MAX_LEVEL] using hL'10)
  have hq : (L : ℚ) < (L' : ℚ) := by exact_mod_cast hLt
  refine ⟨by simp [mkWatermelon, calcRadius, hmin], by simp [mkWatermelon, hmin], ?_⟩
  simp only [mkWatermelon, calcRadius, hmin, hmin']
  linarith

/-- C10 witness at concrete levels 3 and 4. -/
theorem radius_of_level_witness :
    (mkWatermelon ⟨.fin 0, .fin 0⟩ 3 .moving 0).radius = 45 + ((3 : ℚ) - 1) * 8
      ∧ (mkWatermelon ⟨.fin 1, .fin 1⟩ 3 .waiting 5).radius
          = (mkWatermelon ⟨.fin 0, .fin 0⟩ 3 .moving 0).radius
      ∧ (mkWatermelon ⟨.fin 0, .fin 0⟩ 3 .moving 0).radius
          < (mkWatermelon ⟨.fin 2, .fin 2⟩ 4 .stopped 7).radius :=
  radius_of_level ⟨.fin 0, .fin 0⟩ ⟨.fin 1, .fin 1⟩ ⟨.fin 2, .fin 2⟩ .moving .waiting .stopped
    0 5 7 3 4 (by decide) (by decide) (by decide) (by decide)

/-! ### C9: per-piece self-correction in `update` -/

/-- C9: `update` recenters a piece whose position has a non-finite
coordinate to the arena center `(300, 400)` (shown for non-`WAITING`
pieces; a `WAITING` piece is subsequently re-clamped by the second rule),
and pins a `WAITING` piece to `y = 50` with its horizontal position clamped
so that the circle lies inside the walls (`radius ≤ x` and
`x + radius ≤ WIDTH`); the radius bound `radius ≤ 300` holds for every
constructible level. -/
theorem update_recenter_clamp (wm : Watermelon) (hr : wm.radius ≤ 300) :
    (wm.pos.finite = false → wm.state ≠ .waiting →
        wm.update.pos = ⟨.fin 300, .fin 400⟩)
    ∧ (wm.state = .waiting →
        wm.update.pos.y = .fin 50 ∧
        ∃ x : ℚ, wm.update.pos.x = .fin x ∧ wm.radius ≤ x ∧ x + wm.radius ≤ WIDTH) := by
  constructor
  · intro hfin hst
    simp [Watermelon.update, hfin, hst]
  · intro hst
    refine ⟨by simp [Watermelon.update, hst], ?_⟩
    refine ⟨max wm.radius (min (if wm.pos.finite then wm.pos else ⟨.fin 300, .fin 400⟩).x.q
        (WIDTH - wm.radius)), by simp [Watermelon.update, hst], le_max_left _ _, ?_⟩
    have h1 : min (if wm.pos.finite then wm.pos else ⟨.fin 300, .fin 400⟩).x.q
        (WIDTH - wm.radius) ≤ WIDTH - wm.radius := min_le_right _ _
    have h2 : wm.radius ≤ WIDTH - wm.radius := by
      simp only [WIDTH]; linarith
    have := max_le h2 h1
    linarith

/-- C9 witness: a `MOVING` piece with a non-finite coordinate is recentered,
and a `WAITING` piece is clamped and pinned. -/
theorem update_recenter_clamp_witness :
    ((mkWatermelon ⟨.nonfin, .fin 10⟩ 2 .moving 4).pos.finite = false
        → mkWatermelon ⟨.nonfin, .fin 10⟩ 2 .moving 4 ≠ mkWatermelon ⟨.nonfin, .fin 10⟩ 2 .moving 4
        → True)
    ∧ (mkWatermelon ⟨.nonfin, .fin 10⟩ 2 .moving 4).update.pos = ⟨.fin 300, .fin 400⟩ := by
  have h := update_recenter_clamp (mkWatermelon ⟨.nonfin, .fin 10⟩ 2 .moving 4)
    (by norm_num [mkWatermelon, calcRadius, MAX_LEVEL])
  exact ⟨fun _ _ => trivial, h.1 (by decide) (by decide)⟩

theorem mem_eraseP_id_of_ne (l : List Watermelon) (i : Nat) (x : Watermelon)
    (hx : x ∈ l) (hne : x.id ≠ i) : x ∈ l.eraseP fun wm => wm.id == i := by
  induction l with
  | nil => cases hx
  | cons a t ih =>
      by_cases ha : (a.id == i) = true
      · rw [List.eraseP_cons_of_pos (p := fun (wm : Watermelon) => wm.id == i) ha]
        rcases List.mem_cons.mp hx with rfl | ht
        · exact absurd (by simpa using ha) hne
        · exact ht
      · rw [List.eraseP_cons_of_neg (p := fun (wm : Watermelon) => wm.id == i) ha]
        rcases List.mem_cons.mp hx with rfl | ht
        · exact List.mem_cons_self _ _
        · exact List.mem_cons_of_mem _ (ih ht)

theorem eraseP_id_no_key (l : List Watermelon) (i : Nat) (w : Watermelon)
    (hn : (l.map Watermelon.id).Nodup) (hw : w ∈ l) (hi : w.id = i) :
    ∀ x ∈ l.eraseP (fun wm => wm.id == i), x.id ≠ i := by
  induction l with
  | nil => intro x hx; cases hx
  | cons a t ih =>
      simp only [List.map_cons, List.nodup_cons] at hn
      by_cases ha : (a.id == i) = true
      · rw [List.eraseP_cons_of_pos (p := fun (wm : Watermelon) => wm.id == i) ha]
        intro x hx he
        have : x.id ∈ t.map Watermelon.id := List.mem_map_of_mem Watermelon.id hx
        rw [he] at this
        have hai : a.id = i := by simpa using ha
        exact hn.1 (hai ▸ this)
      · rw [List.eraseP_cons_of_neg (p := fun (wm : Watermelon) => wm.id == i) ha]
        have hwt : w ∈ t := by
          rcases List.mem_cons.mp hw with rfl | ht
          · exact absurd (by simp [hi]) ha
          · exact ht
        intro x hx
        rcases List.mem_cons.mp hx with rfl | hxt
        · simpa using ha
        · exact ih hn.2 hwt x hxt

/-! ### C1: resolving one pending merge pair -/

/-- C1: processing a pending pair of two live pieces of equal level
`L < 10` removes both from the physics space and from the live collection,
and creates exactly one new `MOVING` (dynamic) piece of level `L + 1` at
the midpoint of the two input positions.  The id-uniqueness hypotheses are
the run invariants established by `invariant_of_reachable`. -/
theorem merge_pair_processed (g : Game) (w1 w2 : Watermelon) (L : Nat)
    (hn : (g.watermelons.map Watermelon.id).Nodup)
    (hs : g.space.Nodup)
    (hlt : ∀ wm ∈ g.watermelons, wm.id < g.nextId)
    (h1 : w1 ∈ g.watermelons) (h2 : w2 ∈ g.watermelons)
    (hne : w1.id ≠ w2.id)
    (hl1 : w1.level = L) (hl2 : w2.level = L) (hL : L < 10) :
    (∀ wm ∈ (processPair g (w1.id, w2.id)).watermelons, wm.id ≠ w1.id ∧ wm.id ≠ w2.id)
    ∧ w1.id ∉ (processPair g (w1.id, w2.id)).space
    ∧ w2.id ∉ (processPair g (w1.id, w2.id)).space
    ∧ (processPair g (w1.id, w2.id)).watermelons.length + 1 = g.watermelons.length
    ∧ (∃ wNew ∈ (processPair g (w1.id, w2.id)).watermelons,
        wNew.id = g.nextId ∧ wNew.level = L + 1 ∧ wNew.state = .moving
        ∧ wNew.pos = ⟨Coord.mid w1.pos.x w2.pos.x, Coord.mid w1.pos.y w2.pos.y⟩
        ∧ wNew.id ∈ (processPair g (w1.id, w2.id)).space
        ∧ ∀ wm ∈ g.watermelons, wm.id ≠ wNew.id) := by
  have hf1 : lookupId g.watermelons w1.id = some w1 := lookupId_of_mem _ _ hn h1
  have hf2 : lookupId g.watermelons w2.id = some w2 := lookupId_of_mem _ _ hn h2
  have hmin : min (w1.level + 1) MAX_LEVEL = w1.level + 1 := by
    refine Nat.min_eq_left ?_
    simp only [MAX_LEVEL]
    omega
  have hlt1 : w1.id < g.nextId := hlt w1 h1
  have hlt2 : w2.id < g.nextId := hlt w2 h2
  have hn1 : ((g.watermelons.eraseP fun wm => wm.id == w1.id).map Watermelon.id).Nodup :=
    ((List.eraseP_sublist g.watermelons).map Watermelon.id).nodup hn
  have h2e : w2 ∈ g.watermelons.eraseP fun wm => wm.id == w1.id :=
    mem_eraseP_id_of_ne _ _ _ h2 (fun he => hne (he.symm))
  simp only [processPair, hf1, hf2]
  refine ⟨?_, ?_, ?_, ?_, ?_⟩
  · intro wm hwm
    rcases List.mem_append.mp hwm with hL2 | hR
    · have hm1 : wm ∈ g.watermelons.eraseP fun wm => wm.id == w1.id :=
        List.mem_of_mem_eraseP hL2
      refine ⟨eraseP_id_no_key _ _ w1 hn h1 rfl wm hm1, ?_⟩
      exact eraseP_id_no_key _ _ w2 hn1 h2e rfl wm hL2
    · have : wm = mkWatermelon ⟨Coord.mid w1.pos.x w2.pos.x, Coord.mid w1.pos.y w2.pos.y⟩
          (w1.level + 1) .moving g.nextId := by simpa using hR
      subst this
      constructor
      · simp only [mkWatermelon]
        omega
      · simp only [mkWatermelon]
        omega
  · intro hmem
    rcases List.mem_append.mp hmem with hL2 | hR
    · have : w1.id ∈ g.space.erase w1.id := List.erase_subset _ _ hL2
      exact hs.not_mem_erase this
    · simp only [List.mem_singleton] at hR
      omega
  · intro hmem
    rcases List.mem_append.mp hmem with hL2 | hR
    · have hh : w2.id ∈ (g.space.erase w1.id) := List.erase_subset _ _ hL2
      have : (g.space.erase w1.id).Nodup := hs.erase _
      exact this.not_mem_erase hL2
    · simp only [List.mem_singleton] at hR
      omega
  · have e1 : (g.watermelons.eraseP fun wm => wm.id == w1.id).length
        = g.watermelons.length - 1 :=
      List.length_eraseP_of_mem h1 (by simp)
    have e2 : ((g.watermelons.eraseP fun wm => wm.id == w1.id).eraseP
        fun wm => wm.id == w2.id).length
        = (g.watermelons.eraseP fun wm => wm.id == w1.id).length - 1 :=
      List.length_eraseP_of_mem h2e (by simp)
    have hge : 1 ≤ (g.watermelons.eraseP fun wm => wm.id == w1.id).length :=
      List.length_pos.mpr (List.ne_nil_of_mem h2e)
    simp only [List.length_append, e2, e1, List.length_singleton]
    omega
  · refine ⟨mkWatermelon ⟨Coord.mid w1.pos.x w2.pos.x, Coord.mid w1.pos.y w2.pos.y⟩
      (w1.level + 1) .moving g.nextId, by simp, ?_, ?_, ?_, ?_, ?_, ?_⟩
    · simp [mkWatermelon]
    · simp only [mkWatermelon, MAX_LEVEL, hl1]
      omega
    · simp [mkWatermelon]
    · simp [mkWatermelon]
    · simp [mkWatermelon]
    · intro wm hwm
      have := hlt wm hwm
      simp only [mkWatermelon]
      omega

/-- A concrete pending-merge scenario: two level-3 `MOVING` pieces and a
waiting piece. -/
def w1ex : Watermelon := mkWatermelon ⟨.fin 100, .fin 700⟩ 3 .moving 0

def w2ex : Watermelon := mkWatermelon ⟨.fin 200, .fin 700⟩ 3 .moving 1

def gEx1 : Game :=
  { watermelons := [w1ex, w2ex, mkWatermelon ⟨.fin 300, .fin 50⟩ 1 .waiting 2]
    space := [0, 1]
    mergePairs := [(0, 1)]
    waitingId := 2
    score := 3
    gameOver := false
    cooldown := 0
    canSpawn := true
    nextId := 3 }

/-- C1 witness: the concrete pair above is resolved as specified. -/
theorem merge_pair_processed_witness :
    (∀ wm ∈ (processPair gEx1 (w1ex.id, w2ex.id)).watermelons,
        wm.id ≠ w1ex.id ∧ wm.id ≠ w2ex.id)
    ∧ w1ex.id ∉ (processPair gEx1 (w1ex.id, w2ex.id)).space
    ∧ w2ex.id ∉ (processPair gEx1 (w1ex.id, w2ex.id)).space
    ∧ (processPair gEx1 (w1ex.id, w2ex.id)).watermelons.length + 1
        = gEx1.watermelons.length
    ∧ (∃ wNew ∈ (processPair gEx1 (w1ex.id, w2ex.id)).watermelons,
        wNew.id = gEx1.nextId ∧ wNew.level = 3 + 1 ∧ wNew.state = .moving
        ∧ wNew.pos = ⟨Coord.mid w1ex.pos.x w2ex.pos.x, Coord.mid w1ex.pos.y w2ex.pos.y⟩
        ∧ wNew.id ∈ (processPair gEx1 (w1ex.id, w2ex.id)).space
        ∧ ∀ wm ∈ gEx1.watermelons, wm.id ≠ wNew.id) :=
  merge_pair_processed gEx1 w1ex w2ex 3 (by decide) (by decide) (by decide)
    (List.mem_cons_self _ _) (List.mem_cons_of_mem _ (List.mem_cons_self _ _))
    (by decide) (by decide) (by decide) (by decide)

/-! ### C2: releasing onto an overlapping piece -/

/-- C2: a release attempt of the `WAITING` piece while some other live
piece overlaps it (`_check_collision` true, i.e. center distance below 0.9
times the radius sum) only sets the game-over flag: the piece stays
kinematic, no body is registered, and the cooldown/`can_spawn` state is
untouched. -/
theorem release_overlap_sets_game_over (g : Game) (wwm wm : Watermelon)
    (hw : lookupId g.watermelons g.waitingId = some wwm)
    (hst : wwm.state = .waiting) (hcs : g.canSpawn = true)
    (hmem : wm ∈ g.watermelons) (hne : wm.id ≠ g.waitingId)
    (hcol : checkCollision wm wwm = true) :
    releaseWm g = { g with gameOver := true } := by
  have hany : (g.watermelons.any fun x => x.id != g.waitingId && checkCollision x wwm)
      = true := by
    refine List.any_eq_true.mpr ⟨wm, hmem, ?_⟩
    simp [hne, hcol]
  simp [releaseWm, hw, hst, hcs, hany]

/-- A concrete overlap-on-release scenario: the waiting piece at `(300, 50)`
and a settled piece at `(300, 60)` (distance 10, threshold 81). -/
def gEx2 : Game :=
  { watermelons := [mkWatermelon ⟨.fin 300, .fin 60⟩ 1 .moving 0,
      mkWatermelon ⟨.fin 300, .fin 50⟩ 1 .waiting 1]
    space := [0]
    mergePairs := []
    waitingId := 1
    score := 1
    gameOver := false
    cooldown := 0
    canSpawn := true
    nextId := 2 }

/-- C2 witness: the concrete release above only sets the game-over flag. -/
theorem release_overlap_sets_game_over_witness :
    releaseWm gEx2 = { gEx2 with gameOver := true } :=
  release_overlap_sets_game_over gEx2 (mkWatermelon ⟨.fin 300, .fin 50⟩ 1 .waiting 1)
    (mkWatermelon ⟨.fin 300, .fin 60⟩ 1 .moving 0) rfl rfl rfl
    (List.mem_cons_self _ _) (by decide)
    (by norm_num [checkCollision, mkWatermelon, calcRadius, MAX_LEVEL])

/-! ### C7: frames after game over -/

/-- C7: once the game-over flag is set, a frame whose input contains no
restart leaves the state completely unchanged: no spawn, no merge, no
physics step, and the score in particular stays fixed. -/
theorem game_over_frame_fixed (g : Game) (e : Env) (inp : Input)
    (hg : g.gameOver = true) (hr : GEvent.reset ∉ inp.events) :
    frame e inp g = g := by
  have hev : inp.events.foldl evStep g = g := by
    have : ∀ evs : List GEvent, GEvent.reset ∉ evs → evs.foldl evStep g = g := by
      intro evs
      induction evs with
      | nil => intro _; rfl
      | cons ev t ih =>
          intro hmem
          have hne : ev ≠ GEvent.reset := fun he => hmem (he ▸ List.mem_cons_self _ _)
          have ht : GEvent.reset ∉ t := fun hm => hmem (List.mem_cons_of_mem _ hm)
          have hstep : evStep g ev = g := by
            cases ev with
            | reset => exact absurd rfl hne
            | drop => simp [evStep, hg]
          rw [List.foldl_cons, hstep, ih ht]
    exact this inp.events hr
  have hkeys : handleKeys inp g = g := by
    simp [handleKeys, hg]
  have h1 : handleInput inp g = g := by
    rw [handleInput, hev, hkeys]
  rw [frame, h1]
  simp [hg]

/-- C7 witness: a concrete game-over state is fixed by a frame with empty
input. -/
theorem game_over_frame_fixed_witness :
    frame ⟨fun _ => ⟨.fin 300, .fin 700⟩, []⟩ ⟨[GEvent.drop], true, false⟩
      { initGame with gameOver := true } = { initGame with gameOver := true } :=
  game_over_frame_fixed { initGame with gameOver := true }
    ⟨fun _ => ⟨.fin 300, .fin 700⟩, []⟩ ⟨[GEvent.drop], true, false⟩ rfl (by decide)

/-! ### The run invariant -/

/-- State invariant maintained by every frame of a run: ids are unique and
below the `nextId` counter, the physics space registers only live
non-`WAITING` pieces (at most once each), levels stay in `[1, 10]`, the
score stays in `[1, 11]`, pending merge pairs reference distinct live
flagged pieces and are pairwise disjoint, flagged pieces are never
`WAITING`, at most the tracked piece is `WAITING`, and during a cooldown
no `WAITING` piece exists. -/
structure Invariant (g : Game) : Prop where
  idsNodup : (g.watermelons.map Watermelon.id).Nodup
  idsLt : ∀ wm ∈ g.watermelons, wm.id < g.nextId
  spaceNodup : g.space.Nodup
  spaceSub : ∀ i ∈ g.space, ∃ wm ∈ g.watermelons, wm.id = i
  spaceMoving : ∀ i ∈ g.space, ∀ wm ∈ g.watermelons, wm.id = i → wm.state ≠ .waiting
  levels : ∀ wm ∈ g.watermelons, 1 ≤ wm.level ∧ wm.level ≤ 10
  scoreLb : 1 ≤ g.score
  scoreUb : g.score ≤ 11
  pairsMem : ∀ p ∈ g.mergePairs,
    (∃ wm ∈ g.watermelons, wm.id = p.1) ∧ (∃ wm ∈ g.watermelons, wm.id = p.2) ∧ p.1 ≠ p.2
  pairsMerged : ∀ p ∈ g.mergePairs, ∀ wm ∈ g.watermelons,
    (wm.id = p.1 ∨ wm.id = p.2) → wm.merged = true
  pairsDisj : g.mergePairs.Pairwise fun p q => p.1 ≠ q.1 ∧ p.1 ≠ q.2 ∧ p.2 ≠ q.1 ∧ p.2 ≠ q.2
  mergedNotWaiting : ∀ wm ∈ g.watermelons, wm.merged = true → wm.state ≠ .waiting
  waitingUnique : ∀ wm ∈ g.watermelons, wm.state = .waiting → wm.id = g.waitingId
  waitingNoSpawn : g.canSpawn = false → ∀ wm ∈ g.watermelons, wm.state ≠ .waiting

theorem id_unique (l : List Watermelon) (hn : (l.map Watermelon.id).Nodup)
    (w w' : Watermelon) (hw : w ∈ l) (hw' : w' ∈ l) (he : w.id = w'.id) : w = w' :=
  List.inj_on_of_nodup_map hn hw hw' he

theorem inv_congr (g h : Game) (hinv : Invariant g)
    (hw : h.watermelons = g.watermelons) (hs : h.space = g.space)
    (hm : h.mergePairs = g.mergePairs) (hwid : h.waitingId = g.waitingId)
    (hsc : h.score = g.score) (hcs : h.canSpawn = g.canSpawn)
    (hn : h.nextId = g.nextId) : Invariant h := by
  refine ⟨?_, ?_, ?_, ?_, ?_, ?_, ?_, ?_, ?_, ?_, ?_, ?_, ?_, ?_⟩
  · rw [hw]; exact hinv.idsNodup
  · rw [hw, hn]; exact hinv.idsLt
  · rw [hs]; exact hinv.spaceNodup
  · rw [hs, hw]; exact hinv.spaceSub
  · rw [hs, hw]; exact hinv.spaceMoving
  · rw [hw]; exact hinv.levels
  · rw [hsc]; exact hinv.scoreLb
  · rw [hsc]; exact hinv.scoreUb
  · rw [hm, hw]; exact hinv.pairsMem
  · rw [hm, hw]; exact hinv.pairsMerged
  · rw [hm]; exact hinv.pairsDisj
  · rw [hw]; exact hinv.mergedNotWaiting
  · rw [hw, hwid]; exact hinv.waitingUnique
  · rw [hcs, hw]; exact hinv.waitingNoSpawn

theorem inv_initFrom (n : Nat) : Invariant (initGameFrom n) := by
  constructor <;> simp [initGameFrom, mkWatermelon, MAX_LEVEL]

/-- Mapping a function that only moves pieces (id, level, state and merge
flag preserved) over the live list keeps the invariant. -/
theorem inv_map_pos (g : Game) (f : Watermelon → Watermelon)
    (hid : ∀ wm, (f wm).id = wm.id) (hlev : ∀ wm, (f wm).level = wm.level)
    (hst : ∀ wm, (f wm).state = wm.state) (hmg : ∀ wm, (f wm).merged = wm.merged)
    (hinv : Invariant g) : Invariant { g with watermelons := g.watermelons.map f } := by
  have hmapid : (g.watermelons.map f).map Watermelon.id = g.watermelons.map Watermelon.id := by
    rw [List.map_map]
    exact List.map_congr_left fun a _ => hid a
  constructor
  · simpa [hmapid] using hinv.idsNodup
  · intro wm hwm
    rcases List.mem_map.mp hwm with ⟨w, hwmem, rfl⟩
    simpa [hid] using hinv.idsLt w hwmem
  · exact hinv.spaceNodup
  · intro i hi
    rcases hinv.spaceSub i hi with ⟨w, hwmem, hwid⟩
    exact ⟨f w, List.mem_map_of_mem f hwmem, by rw [hid, hwid]⟩
  · intro i hi wm hwm hwid
    rcases List.mem_map.mp hwm with ⟨w, hwmem, rfl⟩
    rw [hst]
    exact hinv.spaceMoving i hi w hwmem (by rw [← hid w, hwid])
  · intro wm hwm
    rcases List.mem_map.mp hwm with ⟨w, hwmem, rfl⟩
    simpa [hlev] using hinv.levels w hwmem
  · exact hinv.scoreLb
  · exact hinv.scoreUb
  · intro p hp
    rcases hinv.pairsMem p hp with ⟨⟨w1, h1, e1⟩, ⟨w2, h2, e2⟩, hne⟩
    exact ⟨⟨f w1, List.mem_map_of_mem f h1, by rw [hid, e1]⟩,
      ⟨f w2, List.mem_map_of_mem f h2, by rw [hid, e2]⟩, hne⟩
  · intro p hp wm hwm hor
    rcases List.mem_map.mp hwm with ⟨w, hwmem, rfl⟩
    rw [hmg]
    exact hinv.pairsMerged p hp w hwmem (by rwa [← hid w])
  · exact hinv.pairsDisj
  · intro wm hwm hm
    rcases List.mem_map.mp hwm with ⟨w, hwmem, rfl⟩
    rw [hst]
    exact hinv.mergedNotWaiting w hwmem (by rwa [← hmg w])
  · intro wm hwm hw
    rcases List.mem_map.mp hwm with ⟨w, hwmem, rfl⟩
    rw [hid]
    exact hinv.waitingUnique w hwmem (by rwa [← hst w])
  · intro hcs wm hwm
    rcases List.mem_map.mp hwm with ⟨w, hwmem, rfl⟩
    rw [hst]
    exact hinv.waitingNoSpawn hcs w hwmem

theorem inv_gameOverFlag (g : Game) (hinv : Invariant g) :
    Invariant { g with gameOver := true } :=
  inv_congr g _ hinv rfl rfl rfl rfl rfl rfl rfl

theorem inv_moveWaiting (d : ℚ) (g : Game) (hinv : Invariant g) :
    Invariant (moveWaiting d g) := by
  refine inv_map_pos g _ ?_ ?_ ?_ ?_ hinv
  all_goals intro wm
  all_goals by_cases h : wm.id = g.waitingId <;> simp [h]

theorem inv_handleKeys (inp : Input) (g : Game) (hinv : Invariant g) :
    Invariant (handleKeys inp g) := by
  unfold handleKeys
  split
  · split
    · split
      · exact inv_moveWaiting _ _ (inv_moveWaiting _ _ hinv)
      · exact inv_moveWaiting _ _ hinv
    · split
      · exact inv_moveWaiting _ _ hinv
      · exact hinv
  · exact hinv

theorem inv_releaseWm (g : Game) (hinv : Invariant g) : Invariant (releaseWm g) := by
  unfold releaseWm
  cases hlk : lookupId g.watermelons g.waitingId with
  | none => exact hinv
  | some wwm =>
      dsimp only
      rcases lookupId_eq_some _ _ _ hlk with ⟨hwmem, hwid⟩
      by_cases hguard : ¬g.canSpawn ∨ wwm.state ≠ WMState.waiting
      · rw [if_pos hguard]
        exact hinv
      · rw [if_neg hguard]
        push_neg at hguard
        have hstate : wwm.state = WMState.waiting := hguard.2
        split
        · exact inv_gameOverFlag g hinv
        · have hnos : g.waitingId ∉ g.space := fun h =>
            hinv.spaceMoving _ h wwm hwmem hwid hstate
          have hidcv : ∀ wm : Watermelon,
              ((if wm.id = g.waitingId then convertToDynamic wm else wm) : Watermelon).id
                = wm.id := by
            intro wm
            by_cases h : wm.id = g.waitingId
            · rw [if_pos h]
              unfold convertToDynamic
              split <;> rfl
            · rw [if_neg h]
          have hlevcv : ∀ wm : Watermelon,
              ((if wm.id = g.waitingId then convertToDynamic wm else wm) : Watermelon).level
                = wm.level := by
            intro wm
            by_cases h : wm.id = g.waitingId
            · rw [if_pos h]
              unfold convertToDynamic
              split <;> rfl
            · rw [if_neg h]
          have hmgcv : ∀ wm : Watermelon,
              ((if wm.id = g.waitingId then convertToDynamic wm else wm) : Watermelon).merged
                = wm.merged := by
            intro wm
            by_cases h : wm.id = g.waitingId
            · rw [if_pos h]
              unfold convertToDynamic
              split <;> rfl
            · rw [if_neg h]
          have hnowait : ∀ wm ∈ g.watermelons,
              ((if wm.id = g.waitingId then convertToDynamic wm else wm) : Watermelon).state
                ≠ WMState.waiting := by
            intro wm hwm
            by_cases h : wm.id = g.waitingId
            · rw [if_pos h]
              unfold convertToDynamic
              by_cases hs : wm.state = WMState.waiting
              · rw [if_pos hs]
                simp
              · rw [if_neg hs]
                exact hs
            · rw [if_neg h]
              intro hs
              exact h (hinv.waitingUnique wm hwm hs)
          have hmapid :
              ((g.watermelons.map fun wm =>
                if wm.id = g.waitingId then convertToDynamic wm else wm).map Watermelon.id)
                = g.watermelons.map Watermelon.id := by
            rw [List.map_map]
            exact List.map_congr_left fun a _ => hidcv a
          constructor
          · simpa [hmapid] using hinv.idsNodup
          · intro wm hwm
            rcases List.mem_map.mp hwm with ⟨w, hwm2, rfl⟩
            simpa [hidcv] using hinv.idsLt w hwm2
          · refine hinv.spaceNodup.append (List.nodup_singleton _) ?_
            intro a ha hb
            rw [List.mem_singleton] at hb
            exact hnos (hb ▸ ha)
          · intro i hi
            rcases List.mem_append.mp hi with hiL | hiR
            · rcases hinv.spaceSub i hiL with ⟨w, hwm2, hwid2⟩
              exact ⟨_, List.mem_map_of_mem _ hwm2, by rw [hidcv, hwid2]⟩
            · rw [List.mem_singleton] at hiR
              subst hiR
              exact ⟨_, List.mem_map_of_mem _ hwmem, by rw [hidcv, hwid]⟩
          · intro i _ wm hwm _
            rcases List.mem_map.mp hwm with ⟨w, hwm2, rfl⟩
            exact hnowait w hwm2
          · intro wm hwm
            rcases List.mem_map.mp hwm with ⟨w, hwm2, rfl⟩
            simpa [hlevcv] using hinv.levels w hwm2
          · exact hinv.scoreLb
          · exact hinv.scoreUb
          · intro p hp
            rcases hinv.pairsMem p hp with ⟨⟨w1, h1, e1⟩, ⟨w2, h2, e2⟩, hne⟩
            exact ⟨⟨_, List.mem_map_of_mem _ h1, by rw [hidcv, e1]⟩,
              ⟨_, List.mem_map_of_mem _ h2, by rw [hidcv, e2]⟩, hne⟩
          · intro p hp wm hwm hor
            rcases List.mem_map.mp hwm with ⟨w, hwm2, rfl⟩
            rw [hmgcv]
            refine hinv.pairsMerged p hp w hwm2 ?_
            rwa [← hidcv w]
          · exact hinv.pairsDisj
          · intro wm hwm _
            rcases List.mem_map.mp hwm with ⟨w, hwm2, rfl⟩
            exact hnowait w hwm2
          · intro wm hwm hst
            rcases List.mem_map.mp hwm with ⟨w, hwm2, rfl⟩
            exact absurd hst (hnowait w hwm2)
          · intro _ wm hwm
            rcases List.mem_map.mp hwm with ⟨w, hwm2, rfl⟩
            exact hnowait w hwm2

theorem inv_evStep (g : Game) (ev : GEvent) (hinv : Invariant g) :
    Invariant (evStep g ev) := by
  cases ev with
  | reset =>
      simp only [evStep]
      by_cases hgo : g.gameOver = true
      · rw [if_pos hgo]
        exact inv_initFrom _
      · rw [if_neg hgo]
        exact hinv
  | drop =>
      simp only [evStep]
      by_cases hgo : g.gameOver = true
      · rw [if_pos hgo]
        exact hinv
      · rw [if_neg hgo]
        exact inv_releaseWm g hinv

theorem inv_handleInput (inp : Input) (g : Game) (hinv : Invariant g) :
    Invariant (handleInput inp g) := by
  unfold handleInput
  refine inv_handleKeys inp _ ?_
  induction inp.events generalizing g with
  | nil => exact hinv
  | cons ev t ih =>
      rw [List.foldl_cons]
      exact ih _ (inv_evStep g ev hinv)

theorem inv_spawnStage (g : Game) (hinv : Invariant g) : Invariant (spawnStage g) := by
  unfold spawnStage
  by_cases hcs : g.canSpawn = true
  · rw [if_pos hcs]
    exact hinv
  · rw [if_neg hcs]
    have hcsf : g.canSpawn = false := by
      cases h : g.canSpawn
      · rfl
      · exact absurd h hcs
    by_cases hcd : g.cooldown - 1 / FPS ≤ 0
    · rw [if_pos hcd]
      dsimp only
      split
      · constructor
        · rw [List.map_append]
          refine hinv.idsNodup.append (List.nodup_singleton _) ?_
          intro a ha hb
          simp only [List.map_cons, List.map_nil, List.mem_singleton, mkWatermelon] at hb
          rcases List.mem_map.mp ha with ⟨w, hw, rfl⟩
          exact absurd hb (Nat.ne_of_lt (hinv.idsLt w hw))
        · intro wm hwm
          rcases List.mem_append.mp hwm with h | h
          · exact Nat.lt_succ_of_lt (hinv.idsLt wm h)
          · rw [List.mem_singleton] at h
            subst h
            simp [mkWatermelon]
        · exact hinv.spaceNodup
        · intro i hi
          rcases hinv.spaceSub i hi with ⟨w, hw, he⟩
          exact ⟨w, List.mem_append_left _ hw, he⟩
        · intro i hi wm hwm he
          rcases List.mem_append.mp hwm with h | h
          · exact hinv.spaceMoving i hi wm h he
          · rw [List.mem_singleton] at h
            subst h
            rcases hinv.spaceSub i hi with ⟨w, hw, hwe⟩
            have := hinv.idsLt w hw
            simp only [mkWatermelon] at he
            omega
        · intro wm hwm
          rcases List.mem_append.mp hwm with h | h
          · exact hinv.levels wm h
          · rw [List.mem_singleton] at h
            subst h
            simp [mkWatermelon, MAX_LEVEL]
        · exact hinv.scoreLb
        · exact hinv.scoreUb
        · intro p hp
          rcases hinv.pairsMem p hp with ⟨⟨w1, h1, e1⟩, ⟨w2, h2, e2⟩, hne⟩
          exact ⟨⟨w1, List.mem_append_left _ h1, e1⟩, ⟨w2, List.mem_append_left _ h2, e2⟩, hne⟩
        · intro p hp wm hwm hor
          rcases List.mem_append.mp hwm with h | h
          · exact hinv.pairsMerged p hp wm h hor
          · rw [List.mem_singleton] at h
            subst h
            rcases hinv.pairsMem p hp with ⟨⟨w1, h1, e1⟩, ⟨w2, h2, e2⟩, _⟩
            have l1 := hinv.idsLt w1 h1
            have l2 := hinv.idsLt w2 h2
            simp only [mkWatermelon] at hor
            omega
        · exact hinv.pairsDisj
        · intro wm hwm hm
          rcases List.mem_append.mp hwm with h | h
          · exact hinv.mergedNotWaiting wm h hm
          · rw [List.mem_singleton] at h
            subst h
            simp [mkWatermelon] at hm
        · intro wm hwm hst
          rcases List.mem_append.mp hwm with h | h
          · exact absurd hst (hinv.waitingNoSpawn hcsf wm h)
          · rw [List.mem_singleton] at h
            subst h
            simp [mkWatermelon]
        · intro hf wm hwm
          simp at hf
      · refine ⟨hinv.idsNodup, hinv.idsLt, hinv.spaceNodup, hinv.spaceSub,
          hinv.spaceMoving, hinv.levels, hinv.scoreLb, hinv.scoreUb, hinv.pairsMem,
          hinv.pairsMerged, hinv.pairsDisj, hinv.mergedNotWaiting,
          hinv.waitingUnique, ?_⟩
        intro hf
        simp at hf
    · rw [if_neg hcd]
      exact inv_congr g _ hinv rfl rfl rfl rfl rfl rfl rfl

theorem inv_updateStage (g : Game) (hinv : Invariant g) : Invariant (updateStage g) := by
  refine inv_map_pos g _ ?_ ?_ ?_ ?_ hinv
  all_goals intro wm
  all_goals unfold Watermelon.update
  all_goals split
  all_goals dsimp only
  all_goals split <;> rfl

theorem inv_evictStage (g : Game) (hinv : Invariant g) : Invariant (evictStage g) := by
  constructor
  · exact hinv.idsNodup
  · exact hinv.idsLt
  · exact (List.filter_sublist _).nodup hinv.spaceNodup
  · intro i hi
    exact hinv.spaceSub i (List.mem_of_mem_filter hi)
  · intro i hi
    exact hinv.spaceMoving i (List.mem_of_mem_filter hi)
  · exact hinv.levels
  · exact hinv.scoreLb
  · exact hinv.scoreUb
  · exact hinv.pairsMem
  · exact hinv.pairsMerged
  · exact hinv.pairsDisj
  · exact hinv.mergedNotWaiting
  · exact hinv.waitingUnique
  · exact hinv.waitingNoSpawn

theorem inv_moveStage (e : Env) (g : Game) (hinv : Invariant g) :
    Invariant (moveStage e g) := by
  refine inv_map_pos g _ ?_ ?_ ?_ ?_ hinv
  all_goals intro wm
  all_goals by_cases h : wm.id ∈ g.space <;> simp [h]

theorem inv_collide (g : Game) (q : Nat × Nat) (hinv : Invariant g) :
    Invariant (collide g q) := by
  unfold collide
  by_cases hg : q.1 ≠ q.2 ∧ q.1 ∈ g.space ∧ q.2 ∈ g.space
  · rw [if_pos hg]
    cases h1 : lookupId g.watermelons q.1 with
    | none => exact hinv
    | some w1 =>
        cases h2 : lookupId g.watermelons q.2 with
        | none => exact hinv
        | some w2 =>
            dsimp only
            by_cases hcond : w1.level = w2.level ∧ w1.merged = false ∧ w2.merged = false
                ∧ w1.state ≠ WMState.waiting ∧ w2.state ≠ WMState.waiting
            · rw [if_pos hcond]
              rcases lookupId_eq_some _ _ _ h1 with ⟨hw1m, hw1i⟩
              rcases lookupId_eq_some _ _ _ h2 with ⟨hw2m, hw2i⟩
              have hmkid : ∀ wm : Watermelon,
                  ((if wm.id = q.1 ∨ wm.id = q.2 then { wm with merged := true } else wm)
                    : Watermelon).id = wm.id := by
                intro wm
                by_cases h : wm.id = q.1 ∨ wm.id = q.2
                · rw [if_pos h]
                · rw [if_neg h]
              have hmklev : ∀ wm : Watermelon,
                  ((if wm.id = q.1 ∨ wm.id = q.2 then { wm with merged := true } else wm)
                    : Watermelon).level = wm.level := by
                intro wm
                by_cases h : wm.id = q.1 ∨ wm.id = q.2
                · rw [if_pos h]
                · rw [if_neg h]
              have hmkst : ∀ wm : Watermelon,
                  ((if wm.id = q.1 ∨ wm.id = q.2 then { wm with merged := true } else wm)
                    : Watermelon).state = wm.state := by
                intro wm
                by_cases h : wm.id = q.1 ∨ wm.id = q.2
                · rw [if_pos h]
                · rw [if_neg h]
              have hmkmono : ∀ wm : Watermelon, wm.merged = true →
                  ((if wm.id = q.1 ∨ wm.id = q.2 then { wm with merged := true } else wm)
                    : Watermelon).merged = true := by
                intro wm hm
                by_cases h : wm.id = q.1 ∨ wm.id = q.2
                · rw [if_pos h]
                · rw [if_neg h]
                  exact hm
              have hmapid :
                  ((g.watermelons.map fun wm =>
                    if wm.id = q.1 ∨ wm.id = q.2 then { wm with merged := true } else wm).map
                      Watermelon.id) = g.watermelons.map Watermelon.id := by
                rw [List.map_map]
                exact List.map_congr_left fun a _ => hmkid a
              constructor
              · simpa [hmapid] using hinv.idsNodup
              · intro wm hwm
                rcases List.mem_map.mp hwm with ⟨w, hw, rfl⟩
                simpa [hmkid] using hinv.idsLt w hw
              · exact hinv.spaceNodup
              · intro i hi
                rcases hinv.spaceSub i hi with ⟨w, hw, he⟩
                exact ⟨_, List.mem_map_of_mem _ hw, by rw [hmkid, he]⟩
              · intro i hi wm hwm he
                rcases List.mem_map.mp hwm with ⟨w, hw, rfl⟩
                rw [hmkst]
                exact hinv.spaceMoving i hi w hw (by rwa [← hmkid w])
              · intro wm hwm
                rcases List.mem_map.mp hwm with ⟨w, hw, rfl⟩
                simpa [hmklev] using hinv.levels w hw
              · exact hinv.scoreLb
              · exact hinv.scoreUb
              · intro p hp
                rcases List.mem_append.mp hp with hpo | hpq
                · rcases hinv.pairsMem p hpo with ⟨⟨x1, hx1, e1⟩, ⟨x2, hx2, e2⟩, hne⟩
                  exact ⟨⟨_, List.mem_map_of_mem _ hx1, by rw [hmkid, e1]⟩,
                    ⟨_, List.mem_map_of_mem _ hx2, by rw [hmkid, e2]⟩, hne⟩
                · rw [List.mem_singleton] at hpq
                  subst hpq
                  exact ⟨⟨_, List.mem_map_of_mem _ hw1m, by rw [hmkid, hw1i]⟩,
                    ⟨_, List.mem_map_of_mem _ hw2m, by rw [hmkid, hw2i]⟩, hg.1⟩
              · intro p hp wm hwm hor
                rcases List.mem_map.mp hwm with ⟨w, hw, rfl⟩
                rw [hmkid] at hor
                rcases List.mem_append.mp hp with hpo | hpq
                · exact hmkmono w (hinv.pairsMerged p hpo w hw hor)
                · rw [List.mem_singleton] at hpq
                  subst hpq
                  rw [if_pos hor]
              · rw [List.pairwise_append]
                refine ⟨hinv.pairsDisj, List.pairwise_singleton _ _, ?_⟩
                intro r hr b hb
                rw [List.mem_singleton] at hb
                subst hb
                rcases hinv.pairsMem r hr with ⟨⟨xr1, hxr1, er1⟩, ⟨xr2, hxr2, er2⟩, _⟩
                have hm1 : xr1.merged = true :=
                  hinv.pairsMerged r hr xr1 hxr1 (Or.inl er1)
                have hm2 : xr2.merged = true :=
                  hinv.pairsMerged r hr xr2 hxr2 (Or.inr er2)
                refine ⟨?_, ?_, ?_, ?_⟩
                · intro he
                  have : xr1 = w1 := id_unique _ hinv.idsNodup _ _ hxr1 hw1m
                    (by rw [er1, hw1i, he])
                  rw [this] at hm1
                  rw [hcond.2.1] at hm1
                  exact Bool.false_ne_true hm1
                · intro he
                  have : xr1 = w2 := id_unique _ hinv.idsNodup _ _ hxr1 hw2m
                    (by rw [er1, hw2i, he])
                  rw [this] at hm1
                  rw [hcond.2.2.1] at hm1
                  exact Bool.false_ne_true hm1
                · intro he
                  have : xr2 = w1 := id_unique _ hinv.idsNodup _ _ hxr2 hw1m
                    (by rw [er2, hw1i, he])
                  rw [this] at hm2
                  rw [hcond.2.1] at hm2
                  exact Bool.false_ne_true hm2
                · intro he
                  have : xr2 = w2 := id_unique _ hinv.idsNodup _ _ hxr2 hw2m
                    (by rw [er2, hw2i, he])
                  rw [this] at hm2
                  rw [hcond.2.2.1] at hm2
                  exact Bool.false_ne_true hm2
              · intro wm hwm hm
                rcases List.mem_map.mp hwm with ⟨w, hw, rfl⟩
                rw [hmkst]
                by_cases h : w.id = q.1 ∨ w.id = q.2
                · rcases h with h | h
                  · have : w = w1 := id_unique _ hinv.idsNodup _ _ hw hw1m (by rw [h, hw1i])
                    rw [this]
                    exact hcond.2.2.2.1
                  · have : w = w2 := id_unique _ hinv.idsNodup _ _ hw hw2m (by rw [h, hw2i])
                    rw [this]
                    exact hcond.2.2.2.2
                · rw [if_neg h] at hm
                  exact hinv.mergedNotWaiting w hw hm
              · intro wm hwm hst
                rcases List.mem_map.mp hwm with ⟨w, hw, rfl⟩
                rw [hmkst] at hst
                rw [hmkid]
                exact hinv.waitingUnique w hw hst
              · intro hcs wm hwm
                rcases List.mem_map.mp hwm with ⟨w, hw, rfl⟩
                rw [hmkst]
                exact hinv.waitingNoSpawn hcs w hw
            · rw [if_neg hcond]
              exact hinv
  · rw [if_neg hg]
    exact hinv

theorem inv_collideStage (e : Env) (g : Game) (hinv : Invariant g) :
    Invariant (collideStage e g) := by
  unfold collideStage
  induction e.collisions generalizing g with
  | nil => exact hinv
  | cons c t ih =>
      rw [List.foldl_cons]
      exact ih _ (inv_collide g c hinv)

theorem inv_processPair_cons (g : Game) (p : Nat × Nat) (tl : List (Nat × Nat))
    (hinv : Invariant g) (hps : g.mergePairs = p :: tl) :
    Invariant (processPair g p) ∧ (processPair g p).mergePairs = tl := by
  have hp : p ∈ g.mergePairs := by rw [hps]; exact List.mem_cons_self _ _
  rcases hinv.pairsMem p hp with ⟨⟨w1, hw1m, hw1i⟩, ⟨w2, hw2m, hw2i⟩, hne⟩
  have hf1 : lookupId g.watermelons p.1 = some w1 := by
    rw [← hw1i]
    exact lookupId_of_mem _ _ hinv.idsNodup hw1m
  have hf2 : lookupId g.watermelons p.2 = some w2 := by
    rw [← hw2i]
    exact lookupId_of_mem _ _ hinv.idsNodup hw2m
  have hdisj : ∀ q ∈ tl, p.1 ≠ q.1 ∧ p.1 ≠ q.2 ∧ p.2 ≠ q.1 ∧ p.2 ≠ q.2 := by
    have := hinv.pairsDisj
    rw [hps, List.pairwise_cons] at this
    exact this.1
  have hn1 : ((g.watermelons.eraseP fun wm => wm.id == p.1).map Watermelon.id).Nodup :=
    ((List.eraseP_sublist g.watermelons).map Watermelon.id).nodup hinv.idsNodup
  have h2e : w2 ∈ g.watermelons.eraseP fun wm => wm.id == p.1 :=
    mem_eraseP_id_of_ne _ _ _ hw2m (by rw [hw2i]; exact fun he => hne he.symm)
  have hsubd : ∀ x ∈ (g.watermelons.eraseP fun wm => wm.id == p.1).eraseP
      fun wm => wm.id == p.2, x ∈ g.watermelons := fun x hx =>
    List.mem_of_mem_eraseP (List.mem_of_mem_eraseP hx)
  have noKey1 : ∀ x ∈ (g.watermelons.eraseP fun wm => wm.id == p.1).eraseP
      fun wm => wm.id == p.2, x.id ≠ p.1 := fun x hx =>
    eraseP_id_no_key _ _ w1 hinv.idsNodup hw1m hw1i x (List.mem_of_mem_eraseP hx)
  have noKey2 : ∀ x ∈ (g.watermelons.eraseP fun wm => wm.id == p.1).eraseP
      fun wm => wm.id == p.2, x.id ≠ p.2 := fun x hx =>
    eraseP_id_no_key _ _ w2 hn1 h2e hw2i x hx
  have survive : ∀ x ∈ g.watermelons, x.id ≠ p.1 → x.id ≠ p.2 →
      x ∈ (g.watermelons.eraseP fun wm => wm.id == p.1).eraseP
        fun wm => wm.id == p.2 := fun x hx h1 h2 =>
    mem_eraseP_id_of_ne _ _ _ (mem_eraseP_id_of_ne _ _ _ hx h1) h2
  have hsl : ((g.watermelons.eraseP fun wm => wm.id == p.1).eraseP
      fun wm => wm.id == p.2).Sublist g.watermelons :=
    (List.eraseP_sublist _).trans (List.eraseP_sublist _)
  have hnd : (((g.watermelons.eraseP fun wm => wm.id == p.1).eraseP
      fun wm => wm.id == p.2).map Watermelon.id).Nodup :=
    (hsl.map Watermelon.id).nodup hinv.idsNodup
  have hlev1 := hinv.levels w1 hw1m
  unfold processPair
  rw [hf1, hf2]
  dsimp only
  rw [hps, List.erase_cons_head]
  refine ⟨?_, rfl⟩
  constructor
  · rw [List.map_append]
    refine hnd.append ?_ ?_
    · simp [mkWatermelon]
    · intro a ha hb
      simp only [List.map_cons, List.map_nil, List.mem_singleton, mkWatermelon] at hb
      rcases List.mem_map.mp ha with ⟨w, hw, rfl⟩
      exact absurd hb (Nat.ne_of_lt (hinv.idsLt w (hsubd w hw)))
  · intro wm hwm
    rcases List.mem_append.mp hwm with h | h
    · exact Nat.lt_succ_of_lt (hinv.idsLt wm (hsubd wm h))
    · rw [List.mem_singleton] at h
      subst h
      simp [mkWatermelon]
  · refine ((hinv.spaceNodup.erase p.1).erase p.2).append (List.nodup_singleton _) ?_
    intro a ha hb
    rw [List.mem_singleton] at hb
    have hsp2 : a ∈ g.space := List.erase_subset _ _ (List.erase_subset _ _ ha)
    rcases hinv.spaceSub a hsp2 with ⟨w, hw, he⟩
    have := hinv.idsLt w hw
    omega
  · intro i hi
    rcases List.mem_append.mp hi with h | h
    · have hi1 : i ∈ g.space.erase p.1 := List.erase_subset _ _ h
      have hisp : i ∈ g.space := List.erase_subset _ _ hi1
      have hne1 : i ≠ p.1 := fun he => hinv.spaceNodup.not_mem_erase (he ▸ hi1)
      have hne2 : i ≠ p.2 := fun he => (hinv.spaceNodup.erase p.1).not_mem_erase (he ▸ h)
      rcases hinv.spaceSub i hisp with ⟨w, hw, he⟩
      exact ⟨w, List.mem_append_left _ (survive w hw (he ▸ hne1) (he ▸ hne2)), he⟩
    · rw [List.mem_singleton] at h
      subst h
      refine ⟨_, List.mem_append_right _ (List.mem_singleton_self _), ?_⟩
      simp [mkWatermelon]
  · intro i hi wm hwm he
    rcases List.mem_append.mp hwm with h | h
    · rcases List.mem_append.mp hi with hi' | hi'
      · have hisp : i ∈ g.space := List.erase_subset _ _ (List.erase_subset _ _ hi')
        exact hinv.spaceMoving i hisp wm (hsubd wm h) he
      · rw [List.mem_singleton] at hi'
        subst hi'
        have := hinv.idsLt wm (hsubd wm h)
        omega
    · rw [List.mem_singleton] at h
      subst h
      simp [mkWatermelon]
  · intro wm hwm
    rcases List.mem_append.mp hwm with h | h
    · exact hinv.levels wm (hsubd wm h)
    · rw [List.mem_singleton] at h
      subst h
      simp only [mkWatermelon, MAX_LEVEL]
      omega
  · exact le_max_of_le_left hinv.scoreLb
  · refine max_le hinv.scoreUb ?_
    omega
  · intro q hq
    rcases hinv.pairsMem q (by rw [hps]; exact List.mem_cons_of_mem _ hq) with
      ⟨⟨x1, hx1, e1⟩, ⟨x2, hx2, e2⟩, hq12⟩
    rcases hdisj q hq with ⟨d1, d2, d3, d4⟩
    refine ⟨⟨x1, List.mem_append_left _ (survive x1 hx1 ?_ ?_), e1⟩,
      ⟨x2, List.mem_append_left _ (survive x2 hx2 ?_ ?_), e2⟩, hq12⟩
    · rw [e1]; exact fun he => d1 he.symm
    · rw [e1]; exact fun he => d3 he.symm
    · rw [e2]; exact fun he => d2 he.symm
    · rw [e2]; exact fun he => d4 he.symm
  · intro q hq wm hwm hor
    rcases List.mem_append.mp hwm with h | h
    · exact hinv.pairsMerged q (by rw [hps]; exact List.mem_cons_of_mem _ hq)
        wm (hsubd wm h) hor
    · rw [List.mem_singleton] at h
      subst h
      rcases hinv.pairsMem q (by rw [hps]; exact List.mem_cons_of_mem _ hq) with
        ⟨⟨x1, hx1, e1⟩, ⟨x2, hx2, e2⟩, _⟩
      have l1 := hinv.idsLt x1 hx1
      have l2 := hinv.idsLt x2 hx2
      simp only [mkWatermelon] at hor
      omega
  · have := hinv.pairsDisj
    rw [hps, List.pairwise_cons] at this
    exact this.2
  · intro wm hwm hm
    rcases List.mem_append.mp hwm with h | h
    · exact hinv.mergedNotWaiting wm (hsubd wm h) hm
    · rw [List.mem_singleton] at h
      subst h
      simp [mkWatermelon] at hm
  · intro wm hwm hst
    rcases List.mem_append.mp hwm with h | h
    · exact hinv.waitingUnique wm (hsubd wm h) hst
    · rw [List.mem_singleton] at h
      subst h
      simp [mkWatermelon] at hst
  · intro hcs wm hwm
    rcases List.mem_append.mp hwm with h | h
    · exact hinv.waitingNoSpawn hcs wm (hsubd wm h)
    · rw [List.mem_singleton] at h
      subst h
      simp [mkWatermelon]

theorem inv_drain : ∀ (ps : List (Nat × Nat)) (g : Game), Invariant g →
    g.mergePairs = ps →
    Invariant (ps.foldl processPair g) ∧ (ps.foldl processPair g).mergePairs = [] := by
  intro ps
  induction ps with
  | nil =>
      intro g hinv he
      exact ⟨hinv, he⟩
  | cons p tl ih =>
      intro g hinv he
      rw [List.foldl_cons]
      rcases inv_processPair_cons g p tl hinv he with ⟨hinv1, he1⟩
      exact ih _ hinv1 he1

theorem inv_processMerges (g : Game) (hinv : Invariant g) :
    Invariant (processMerges g) ∧ (processMerges g).mergePairs = [] :=
  inv_drain g.mergePairs g hinv rfl

theorem inv_gameUpdate (g : Game) (hinv : Invariant g) :
    Invariant (gameUpdate g) ∧ (gameUpdate g).mergePairs = [] :=
  inv_processMerges _ (inv_updateStage _ (inv_spawnStage _ hinv))

theorem inv_physicsStep (e : Env) (g : Game) (hinv : Invariant g) :
    Invariant (physicsStep e g) :=
  inv_moveStage e _ (inv_collideStage e _ (inv_evictStage g hinv))

theorem inv_frame (e : Env) (inp : Input) (g : Game) (hinv : Invariant g) :
    Invariant (frame e inp g) := by
  unfold frame
  by_cases hgo : (handleInput inp g).gameOver = true
  · rw [if_pos hgo]
    exact inv_handleInput inp g hinv
  · rw [if_neg hgo]
    exact inv_physicsStep e _ (inv_gameUpdate _ (inv_handleInput inp g hinv)).1

/-- Every reachable frame-boundary state satisfies the run invariant. -/
theorem invariant_of_reachable (g : Game) (h : Reachable g) : Invariant g := by
  induction h with
  | init => exact inv_initFrom 0
  | step e inp _ ih => exact inv_frame e inp _ ih

/-! ### C6: at most one waiting piece -/

theorem countP_waiting_le_one (l : List Watermelon) (wid : Nat)
    (hn : (l.map Watermelon.id).Nodup)
    (hw : ∀ wm ∈ l, wm.state = WMState.waiting → wm.id = wid) :
    l.countP (fun wm => wm.state == WMState.waiting) ≤ 1 := by
  rw [List.countP_eq_length_filter]
  cases hfl : l.filter (fun wm => wm.state == WMState.waiting) with
  | nil => simp
  | cons x t =>
      cases t with
      | nil => simp
      | cons y t2 =>
          exfalso
          have hsub : (x :: y :: t2).Sublist l := by
            rw [← hfl]
            exact List.filter_sublist l
          have hnd : ((x :: y :: t2).map Watermelon.id).Nodup := (hsub.map _).nodup hn
          have hxf : x ∈ l.filter (fun wm => wm.state == WMState.waiting) := by
            rw [hfl]
            exact List.mem_cons_self _ _
          have hyf : y ∈ l.filter (fun wm => wm.state == WMState.waiting) := by
            rw [hfl]
            exact List.mem_cons_of_mem _ (List.mem_cons_self _ _)
          have hxw : x.id = wid := hw x (List.mem_of_mem_filter hxf)
            (by simpa using List.of_mem_filter hxf)
          have hyw : y.id = wid := hw y (List.mem_of_mem_filter hyf)
            (by simpa using List.of_mem_filter hyf)
          simp only [List.map_cons, List.nodup_cons, List.mem_cons] at hnd
          exact hnd.1 (Or.inl (hxw.trans hyw.symm))

/-- C6: until game over, at most one piece of the live collection is in the
`WAITING` state (new waiting pieces appear only at initialization and after
the tracked one was released, which the invariant proof threads through
`spawnStage`). -/
theorem at_most_one_waiting (g : Game) (h : Reachable g) (hgo : g.gameOver = false) :
    g.watermelons.countP (fun wm => wm.state == WMState.waiting) ≤ 1 := by
  have hinv := invariant_of_reachable g h
  exact countP_waiting_le_one _ _ hinv.idsNodup hinv.waitingUnique

/-- C6 witness at the initial state. -/
theorem at_most_one_waiting_witness :
    initGame.gameOver = false
      ∧ initGame.watermelons.countP (fun wm => wm.state == WMState.waiting) ≤ 1 :=
  ⟨rfl, at_most_one_waiting initGame Reachable.init rfl⟩

/-! ### C3 (amended): score bounds over a run -/

/-- C3 (amended): at every frame boundary the score lies in `[1, 11]`.
The original bound 10 fails: `_process_merges` records
`max(score, level + 1)` with the unclamped `level + 1`, so a merge of two
level-10 pieces sets the score to 11 even though the created piece is
clamped to level 10 (see `score_eleven_reachable`). -/
theorem score_bounds (g : Game) (h : Reachable g) : 1 ≤ g.score ∧ g.score ≤ 11 :=
  ⟨(invariant_of_reachable g h).scoreLb, (invariant_of_reachable g h).scoreUb⟩

/-- C3 (amended) witness at the initial state. -/
theorem score_bounds_witness : 1 ≤ initGame.score ∧ initGame.score ≤ 11 :=
  score_bounds initGame Reachable.init

/-! ### C4: pieces versus registered bodies -/

/-- C4 counterexample: it is NOT the case that every non-destroyed piece of
the live collection has a body registered in the physics world — the very
first state already contains the waiting piece while the space is empty
(`_create_waiting_wm` never calls `physics.add`). -/
theorem piece_without_body :
    ¬ ∀ g : Game, Reachable g → ∀ wm ∈ g.watermelons, wm.id ∈ g.space := by
  intro h
  have hmem : mkWatermelon ⟨.fin 300, .fin 50⟩ 1 .waiting 0 ∈ initGame.watermelons :=
    List.mem_cons_self _ _
  have := h initGame Reachable.init _ hmem
  simp [initGame, initGameFrom, mkWatermelon] at this

/-- C4 (amended): no dangling bodies — every id registered in the physics
world belongs to exactly one live piece (a piece in the `WAITING` state, or
one evicted by the non-finite scan, may conversely lack a body). -/
theorem no_dangling_bodies (g : Game) (h : Reachable g) :
    g.space.Nodup ∧ ∀ i ∈ g.space, ∃! wm, wm ∈ g.watermelons ∧ wm.id = i := by
  have hinv := invariant_of_reachable g h
  refine ⟨hinv.spaceNodup, ?_⟩
  intro i hi
  rcases hinv.spaceSub i hi with ⟨w, hw, he⟩
  refine ⟨w, ⟨hw, he⟩, ?_⟩
  intro x ⟨hx, hxe⟩
  exact id_unique _ hinv.idsNodup x w hx hw (by rw [hxe, he])

/-- C4 (amended) witness at the initial state. -/
theorem no_dangling_bodies_witness :
    initGame.space.Nodup ∧ ∀ i ∈ initGame.space, ∃! wm, wm ∈ initGame.watermelons ∧ wm.id = i :=
  no_dangling_bodies initGame Reachable.init

/-! ### C8: the pending-merge queue -/

/-- C8: at the end of a frame's merge resolution (`_process_merges` inside
`_update`, which runs when the post-input state is not game over) the
pending queue is empty, and at every frame boundary each pending pair
references only live pieces — no stale reference survives into the next
frame. -/
theorem merge_queue_drained (g : Game) (inp : Input) (h : Reachable g)
    (hgo : (handleInput inp g).gameOver = false) :
    (gameUpdate (handleInput inp g)).mergePairs = []
      ∧ ∀ p ∈ g.mergePairs,
        (∃ wm ∈ g.watermelons, wm.id = p.1) ∧ (∃ wm ∈ g.watermelons, wm.id = p.2) := by
  have hinv := invariant_of_reachable g h
  refine ⟨(inv_gameUpdate _ (inv_handleInput inp g hinv)).2, ?_⟩
  intro p hp
  rcases hinv.pairsMem p hp with ⟨h1, h2, _⟩
  exact ⟨h1, h2⟩

/-- C8 witness at the initial state with empty input. -/
theorem merge_queue_drained_witness :
    (gameUpdate (handleInput ⟨[], false, false⟩ initGame)).mergePairs = []
      ∧ ∀ p ∈ initGame.mergePairs,
        (∃ wm ∈ initGame.watermelons, wm.id = p.1)
          ∧ (∃ wm ∈ initGame.watermelons, wm.id = p.2) :=
  merge_queue_drained initGame ⟨[], false, false⟩ Reachable.init (by decide)

/-! ### C5: the merge flag is one-way -/

/-- Every live piece carrying id `i` (there is at most one) is flagged. -/
def MergedAt (g : Game) (i : Nat) : Prop :=
  ∀ wm ∈ g.watermelons, wm.id = i → wm.merged = true

theorem mergedAt_map (g : Game) (f : Watermelon → Watermelon) (i : Nat)
    (hid : ∀ wm, (f wm).id = wm.id)
    (hmg : ∀ wm, wm.merged = true → (f wm).merged = true)
    (h : MergedAt g i) : MergedAt { g with watermelons := g.watermelons.map f } i := by
  intro wm hwm he
  rcases List.mem_map.mp hwm with ⟨w, hw, rfl⟩
  exact hmg w (h w hw (by rwa [← hid w]))

theorem mergedAt_releaseWm (g : Game) (i : Nat) (h : MergedAt g i) :
    MergedAt (releaseWm g) i ∧ (releaseWm g).nextId = g.nextId := by
  unfold releaseWm
  cases hlk : lookupId g.watermelons g.waitingId with
  | none => exact ⟨h, rfl⟩
  | some wwm =>
      dsimp only
      split
      · exact ⟨h, rfl⟩
      · split
        · exact ⟨h, rfl⟩
        · refine ⟨mergedAt_map g _ i ?_ ?_ h, rfl⟩
          · intro wm
            by_cases hc : wm.id = g.waitingId
            · rw [if_pos hc]
              unfold convertToDynamic
              split <;> rfl
            · rw [if_neg hc]
          · intro wm hm
            by_cases hc : wm.id = g.waitingId
            · rw [if_pos hc]
              unfold convertToDynamic
              split <;> exact hm
            · rw [if_neg hc]
              exact hm

theorem mergedAt_evStep (g : Game) (ev : GEvent) (i : Nat) (hlt : i < g.nextId)
    (h : MergedAt g i) :
    MergedAt (evStep g ev) i ∧ g.nextId ≤ (evStep g ev).nextId := by
  cases ev with
  | reset =>
      simp only [evStep]
      by_cases hgo : g.gameOver = true
      · rw [if_pos hgo]
        constructor
        · intro wm hwm he
          rcases List.mem_singleton.mp hwm with rfl
          simp only [initGameFrom, mkWatermelon] at he
          omega
        · simp [initGameFrom]
      · rw [if_neg hgo]
        exact ⟨h, le_refl _⟩
  | drop =>
      simp only [evStep]
      by_cases hgo : g.gameOver = true
      · rw [if_pos hgo]
        exact ⟨h, le_refl _⟩
      · rw [if_neg hgo]
        rcases mergedAt_releaseWm g i h with ⟨hm, he⟩
        exact ⟨hm, le_of_eq he.symm⟩

theorem mergedAt_handleKeys (inp : Input) (g : Game) (i : Nat) (h : MergedAt g i) :
    MergedAt (handleKeys inp g) i ∧ (handleKeys inp g).nextId = g.nextId := by
  have hmw : ∀ (d : ℚ) (g' : Game), MergedAt g' i → MergedAt (moveWaiting d g') i := by
    intro d g' hg'
    refine mergedAt_map g' _ i ?_ ?_ hg'
    · intro wm
      by_cases hc : wm.id = g'.waitingId <;> simp [hc]
    · intro wm hm
      by_cases hc : wm.id = g'.waitingId <;> simp [hc, hm]
  unfold handleKeys
  split
  · split
    · split
      · exact ⟨hmw _ _ (hmw _ _ h), rfl⟩
      · exact ⟨hmw _ _ h, rfl⟩
    · split
      · exact ⟨hmw _ _ h, rfl⟩
      · exact ⟨h, rfl⟩
  · exact ⟨h, rfl⟩

theorem mergedAt_handleInput (inp : Input) (g : Game) (i : Nat) (hlt : i < g.nextId)
    (h : MergedAt g i) :
    MergedAt (handleInput inp g) i ∧ g.nextId ≤ (handleInput inp g).nextId := by
  unfold handleInput
  have hfold : MergedAt (inp.events.foldl evStep g) i
      ∧ g.nextId ≤ (inp.events.foldl evStep g).nextId := by
    induction inp.events generalizing g with
    | nil => exact ⟨h, le_refl _⟩
    | cons ev t ih =>
        rw [List.foldl_cons]
        rcases mergedAt_evStep g ev i hlt h with ⟨h1, h2⟩
        rcases ih (evStep g ev) (lt_of_lt_of_le hlt h2) h1 with ⟨h3, h4⟩
        exact ⟨h3, le_trans h2 h4⟩
  rcases hfold with ⟨h1, h2⟩
  rcases mergedAt_handleKeys inp _ i h1 with ⟨h3, h4⟩
  exact ⟨h3, by rw [h4]; exact h2⟩

theorem mergedAt_spawnStage (g : Game) (i : Nat) (hlt : i < g.nextId)
    (h : MergedAt g i) :
    MergedAt (spawnStage g) i ∧ g.nextId ≤ (spawnStage g).nextId := by
  unfold spawnStage
  by_cases hcs : g.canSpawn = true
  · rw [if_pos hcs]
    exact ⟨h, le_refl _⟩
  · rw [if_neg hcs]
    by_cases hcd : g.cooldown - 1 / FPS ≤ 0
    · rw [if_pos hcd]
      dsimp only
      split
      · constructor
        · intro wm hwm he
          rcases List.mem_append.mp hwm with hw | hw
          · exact h wm hw he
          · rcases List.mem_singleton.mp hw with rfl
            simp only [mkWatermelon] at he
            omega
        · exact Nat.le_succ _
      · exact ⟨h, le_refl _⟩
    · rw [if_neg hcd]
      exact ⟨h, le_refl _⟩

theorem mergedAt_updateStage (g : Game) (i : Nat) (h : MergedAt g i) :
    MergedAt (updateStage g) i := by
  refine mergedAt_map g _ i ?_ ?_ h
  all_goals intro wm
  · unfold Watermelon.update
    split
    all_goals dsimp only
    all_goals split <;> rfl
  · intro hm
    unfold Watermelon.update
    split
    all_goals dsimp only
    all_goals split <;> exact hm

theorem mergedAt_processPair (g : Game) (p : Nat × Nat) (i : Nat) (hlt : i < g.nextId)
    (h : MergedAt g i) :
    MergedAt (processPair g p) i ∧ g.nextId ≤ (processPair g p).nextId := by
  unfold processPair
  cases h1 : lookupId g.watermelons p.1 with
  | none => exact ⟨h, le_refl _⟩
  | some w1 =>
      cases h2 : lookupId g.watermelons p.2 with
      | none => exact ⟨h, le_refl _⟩
      | some w2 =>
          dsimp only
          constructor
          · intro wm hwm he
            rcases List.mem_append.mp hwm with hw | hw
            · exact h wm (List.mem_of_mem_eraseP (List.mem_of_mem_eraseP hw)) he
            · rcases List.mem_singleton.mp hw with rfl
              simp only [mkWatermelon] at he
              omega
          · exact Nat.le_succ _

theorem mergedAt_processMerges (g : Game) (i : Nat) (hlt : i < g.nextId)
    (h : MergedAt g i) :
    MergedAt (processMerges g) i ∧ g.nextId ≤ (processMerges g).nextId := by
  unfold processMerges
  generalize g.mergePairs = ps
  induction ps generalizing g with
  | nil => exact ⟨h, le_refl _⟩
  | cons q t ih =>
      rw [List.foldl_cons]
      rcases mergedAt_processPair g q i hlt h with ⟨h1, h2⟩
      rcases ih (processPair g q) (lt_of_lt_of_le hlt h2) h1 with ⟨h3, h4⟩
      exact ⟨h3, le_trans h2 h4⟩

theorem mergedAt_collide (g : Game) (q : Nat × Nat) (i : Nat) (h : MergedAt g i) :
    MergedAt (collide g q) i ∧ (collide g q).nextId = g.nextId := by
  unfold collide
  split
  · cases h1 : lookupId g.watermelons q.1 with
    | none => exact ⟨h, rfl⟩
    | some w1 =>
        cases h2 : lookupId g.watermelons q.2 with
        | none => exact ⟨h, rfl⟩
        | some w2 =>
            dsimp only
            split
            · refine ⟨mergedAt_map g _ i ?_ ?_ h, rfl⟩
              · intro wm
                by_cases hc : wm.id = q.1 ∨ wm.id = q.2
                · rw [if_pos hc]
                · rw [if_neg hc]
              · intro wm hm
                by_cases hc : wm.id = q.1 ∨ wm.id = q.2
                · rw [if_pos hc]
                · rw [if_neg hc]
                  exact hm
            · exact ⟨h, rfl⟩
  · exact ⟨h, rfl⟩

theorem mergedAt_collideStage (e : Env) (g : Game) (i : Nat) (h : MergedAt g i) :
    MergedAt (collideStage e g) i ∧ (collideStage e g).nextId = g.nextId := by
  unfold collideStage
  induction e.collisions generalizing g with
  | nil => exact ⟨h, rfl⟩
  | cons c t ih =>
      rw [List.foldl_cons]
      rcases mergedAt_collide g c i h with ⟨h1, h2⟩
      rcases ih (collide g c) h1 with ⟨h3, h4⟩
      exact ⟨h3, h4.trans h2⟩

theorem mergedAt_moveStage (e : Env) (g : Game) (i : Nat) (h : MergedAt g i) :
    MergedAt (moveStage e g) i := by
  refine mergedAt_map g _ i ?_ ?_ h
  · intro wm
    by_cases hc : wm.id ∈ g.space <;> simp [hc]
  · intro wm hm
    by_cases hc : wm.id ∈ g.space <;> simp [hc, hm]

theorem mergedAt_evictStage (g : Game) (i : Nat) (h : MergedAt g i) :
    MergedAt (evictStage g) i :=
  fun wm hwm he => h wm hwm he

theorem mergedAt_frame (e : Env) (inp : Input) (g : Game) (i : Nat)
    (hlt : i < g.nextId) (h : MergedAt g i) : MergedAt (frame e inp g) i := by
  unfold frame
  rcases mergedAt_handleInput inp g i hlt h with ⟨h1, h2⟩
  by_cases hgo : (handleInput inp g).gameOver = true
  · rw [if_pos hgo]
    exact h1
  · rw [if_neg hgo]
    rcases mergedAt_spawnStage _ i (lt_of_lt_of_le hlt h2) h1 with ⟨h3, h4⟩
    have h5 := mergedAt_updateStage _ i h3
    rcases mergedAt_processMerges _ i (by
      have : i < (spawnStage (handleInput inp g)).nextId := lt_of_lt_of_le hlt (h2.trans h4)
      exact this) h5 with ⟨h6, _⟩
    have h7 := mergedAt_evictStage _ i h6
    rcases mergedAt_collideStage e _ i h7 with ⟨h8, _⟩
    exact mergedAt_moveStage e _ i h8

theorem releaseWm_mergePairs (g : Game) : (releaseWm g).mergePairs = g.mergePairs := by
  unfold releaseWm
  cases lookupId g.watermelons g.waitingId with
  | none => rfl
  | some wwm =>
      dsimp only
      split
      · rfl
      · split <;> rfl

theorem evStep_mergePairs (g : Game) (ev : GEvent) :
    (evStep g ev).mergePairs = g.mergePairs ∨ (evStep g ev).mergePairs = [] := by
  cases ev with
  | reset =>
      simp only [evStep]
      split
      · right
        rfl
      · left
        rfl
  | drop =>
      simp only [evStep]
      split
      · left
        rfl
      · left
        exact releaseWm_mergePairs g

theorem handleKeys_mergePairs (inp : Input) (g : Game) :
    (handleKeys inp g).mergePairs = g.mergePairs := by
  unfold handleKeys
  split
  · split <;> split <;> rfl
  · rfl

theorem handleInput_mergePairs (inp : Input) (g : Game) :
    (handleInput inp g).mergePairs = g.mergePairs
      ∨ (handleInput inp g).mergePairs = [] := by
  unfold handleInput
  rw [handleKeys_mergePairs]
  induction inp.events generalizing g with
  | nil => left; rfl
  | cons ev t ih =>
      rw [List.foldl_cons]
      rcases evStep_mergePairs g ev with h | h
      · rcases ih (evStep g ev) with h2 | h2
        · left
          rw [h2, h]
        · right
          exact h2
      · rcases ih (evStep g ev) with h2 | h2
        · right
          rw [h2, h]
        · right
          exact h2

theorem collide_pairs_sub (g : Game) (q : Nat × Nat) (i : Nat) (hM : MergedAt g i) :
    ∀ p ∈ (collide g q).mergePairs, p ∈ g.mergePairs ∨ (p.1 ≠ i ∧ p.2 ≠ i) := by
  unfold collide
  split
  · cases h1 : lookupId g.watermelons q.1 with
    | none => exact fun p hp => Or.inl hp
    | some w1 =>
        cases h2 : lookupId g.watermelons q.2 with
        | none => exact fun p hp => Or.inl hp
        | some w2 =>
            dsimp only
            split
            case isTrue hcond =>
              intro p hp
              rcases List.mem_append.mp hp with hpo | hpq
              · exact Or.inl hpo
              · rcases List.mem_singleton.mp hpq with rfl
                right
                constructor
                · intro he
                  rcases lookupId_eq_some _ _ _ h1 with ⟨hm1, hi1⟩
                  have := hM w1 hm1 (by rw [hi1, he])
                  rw [hcond.2.1] at this
                  exact Bool.false_ne_true this
                · intro he
                  rcases lookupId_eq_some _ _ _ h2 with ⟨hm2, hi2⟩
                  have := hM w2 hm2 (by rw [hi2, he])
                  rw [hcond.2.2.1] at this
                  exact Bool.false_ne_true this
            case isFalse => exact fun p hp => Or.inl hp
  · exact fun p hp => Or.inl hp

theorem collideStage_pairs (e : Env) (g : Game) (i : Nat) (hM : MergedAt g i) :
    ∀ p ∈ (collideStage e g).mergePairs, p ∈ g.mergePairs ∨ (p.1 ≠ i ∧ p.2 ≠ i) := by
  unfold collideStage
  induction e.collisions generalizing g with
  | nil => exact fun p hp => Or.inl hp
  | cons c t ih =>
      rw [List.foldl_cons]
      intro p hp
      rcases ih (collide g c) (mergedAt_collide g c i hM).1 p hp with h | h
      · exact collide_pairs_sub g c i hM p h
      · exact Or.inr h

/-- C5: the merge flag is one-way and gates re-selection.  For every frame
from a reachable state: (1) a piece flagged `merged` keeps the flag in the
successor state (if it still exists; merge resolution destroys it,
restart replaces it by fresh pieces); (2) every pair newly enqueued by the
collision callback during the frame avoids every already-flagged piece, so
no piece is ever selected into a second merge pair; (3) pending pairs only
ever reference flagged pieces. -/
theorem merged_flag_one_way (g : Game) (e : Env) (inp : Input) (h : Reachable g) :
    (∀ i, (∃ wm ∈ g.watermelons, wm.id = i ∧ wm.merged = true) →
        ∀ wm ∈ (frame e inp g).watermelons, wm.id = i → wm.merged = true)
    ∧ (∀ p ∈ (frame e inp g).mergePairs, p ∉ g.mergePairs →
        ∀ wm ∈ g.watermelons, wm.merged = true → p.1 ≠ wm.id ∧ p.2 ≠ wm.id)
    ∧ (∀ p ∈ g.mergePairs, ∀ wm ∈ g.watermelons, (wm.id = p.1 ∨ wm.id = p.2) →
        wm.merged = true) := by
  have hinv := invariant_of_reachable g h
  have hMg : ∀ i, (∃ wm ∈ g.watermelons, wm.id = i ∧ wm.merged = true) → MergedAt g i := by
    intro i ⟨wm, hwm, hi, hm⟩
    intro x hx he
    have : x = wm := id_unique _ hinv.idsNodup x wm hx hwm (by rw [he, hi])
    rw [this]
    exact hm
  refine ⟨?_, ?_, hinv.pairsMerged⟩
  · intro i hex
    have hlt : i < g.nextId := by
      rcases hex with ⟨wm, hwm, hi, _⟩
      rw [← hi]
      exact hinv.idsLt wm hwm
    exact mergedAt_frame e inp g i hlt (hMg i hex)
  · intro p hp hnew wm hwm hm
    have hMi : MergedAt g wm.id := hMg wm.id ⟨wm, hwm, rfl, hm⟩
    have hlt : wm.id < g.nextId := hinv.idsLt wm hwm
    unfold frame at hp
    by_cases hgo : (handleInput inp g).gameOver = true
    · rw [if_pos hgo] at hp
      rcases handleInput_mergePairs inp g with he | he
      · rw [he] at hp
        exact absurd hp hnew
      · rw [he] at hp
        cases hp
    · rw [if_neg hgo] at hp
      have hpairs0 : (evictStage (gameUpdate (handleInput inp g))).mergePairs = [] :=
        (inv_gameUpdate _ (inv_handleInput inp g hinv)).2
      have hMgu : MergedAt (evictStage (gameUpdate (handleInput inp g))) wm.id := by
        rcases mergedAt_handleInput inp g wm.id hlt hMi with ⟨h1, h2⟩
        rcases mergedAt_spawnStage _ wm.id (lt_of_lt_of_le hlt h2) h1 with ⟨h3, h4⟩
        have h5 := mergedAt_updateStage _ wm.id h3
        rcases mergedAt_processMerges (updateStage (spawnStage (handleInput inp g)))
          wm.id (lt_of_lt_of_le hlt (h2.trans h4)) h5 with ⟨h6, _⟩
        exact mergedAt_evictStage _ wm.id h6
      have hp2 : p ∈ (collideStage e (evictStage (gameUpdate (handleInput inp g)))).mergePairs := hp
      rcases collideStage_pairs e _ wm.id hMgu p hp2 with hin | hne
      · rw [hpairs0] at hin
        cases hin
      · exact hne

/-- C5 witness at the initial state (no flagged piece and no pending pair
exist there, so the three statements instantiate trivially but the
invariant hypotheses are discharged concretely). -/
theorem merged_flag_one_way_witness :
    (∀ i, (∃ wm ∈ initGame.watermelons, wm.id = i ∧ wm.merged = true) →
        ∀ wm ∈ (frame ⟨fun _ => ⟨.fin 300, .fin 700⟩, []⟩ ⟨[], false, false⟩
          initGame).watermelons, wm.id = i → wm.merged = true)
    ∧ (∀ p ∈ (frame ⟨fun _ => ⟨.fin 300, .fin 700⟩, []⟩ ⟨[], false, false⟩
          initGame).mergePairs, p ∉ initGame.mergePairs →
        ∀ wm ∈ initGame.watermelons, wm.merged = true → p.1 ≠ wm.id ∧ p.2 ≠ wm.id)
    ∧ (∀ p ∈ initGame.mergePairs, ∀ wm ∈ initGame.watermelons,
        (wm.id = p.1 ∨ wm.id = p.2) → wm.merged = true) :=
  merged_flag_one_way initGame ⟨fun _ => ⟨.fin 300, .fin 700⟩, []⟩ ⟨[], false, false⟩
    Reachable.init

/-! ### C3: a run reaching score 11

The environment (standing for pymunk's opaque integration) may place
released bodies anywhere; the trace below parks every released piece at
`(300, 700)`, far below the spawn point, releases 1024 level-1 pieces and
merges them pairwise up to two level-10 pieces, whose merge sets the score
to `max score (10 + 1) = 11`. -/

/-- The parking spot for settled pieces in the constructed run. -/
def parkPos : Pos := ⟨.fin 300, .fin 700⟩

/-- A parked dynamic piece with the given id and level. -/
def parkedOf (p : Nat × Nat) : Watermelon := mkWatermelon parkPos p.2 .moving p.1

/-- The waiting piece with the given id, at the spawn point. -/
def waitingWm (i : Nat) : Watermelon := mkWatermelon ⟨.fin 300, .fin 50⟩ 1 .waiting i

/-- A parked piece already flagged by the collision callback. -/
def pmarkOf (i j : Nat) (p : Nat × Nat) : Watermelon :=
  if p.1 = i ∨ p.1 = j then { parkedOf p with merged := true } else parkedOf p

/-- Physics keeps every registered body at the parking spot, no contacts. -/
def parkEnv : Env := ⟨fun _ => parkPos, []⟩

/-- Physics keeps bodies parked and reports one begin contact. -/
def fireEnv (i j : Nat) : Env := ⟨fun _ => parkPos, [(i, j)]⟩

/-- No events, no held keys. -/
def nullInput : Input := ⟨[], false, false⟩

/-- A single release key press. -/
def dropInput : Input := ⟨[GEvent.drop], false, false⟩

/-- A quiescent frame-boundary state: parked pieces `ps₁`, the waiting
piece, parked pieces `ps₂`, spawning allowed. -/
def readyG (ps₁ ps₂ : List (Nat × Nat)) (sp : List Nat) (w n s : Nat) : Game :=
  { watermelons := ps₁.map parkedOf ++ waitingWm w :: ps₂.map parkedOf
    space := sp
    mergePairs := []
    waitingId := w
    score := s
    gameOver := false
    cooldown := 0
    canSpawn := true
    nextId := n }

/-- A cooldown state: only parked pieces, waiting for the next spawn. -/
def coolG (qs : List (Nat × Nat)) (sp : List Nat) (w n s : Nat) (c : ℚ) : Game :=
  { watermelons := qs.map parkedOf
    space := sp
    mergePairs := []
    waitingId := w
    score := s
    gameOver := false
    cooldown := c
    canSpawn := false
    nextId := n }

/-- The state one frame after a contact `(i, j)` was reported: both pieces
flagged, the pair pending. -/
def markedG (ps₁ ps₂ : List (Nat × Nat)) (sp : List Nat) (w n s i j : Nat) : Game :=
  { watermelons := ps₁.map (pmarkOf i j) ++ waitingWm w :: ps₂.map (pmarkOf i j)
    space := sp
    mergePairs := [(i, j)]
    waitingId := w
    score := s
    gameOver := false
    cooldown := 0
    canSpawn := true
    nextId := n }

/-- Well-formedness of a `readyG`/`markedG` configuration. -/
def WFready (ps₁ ps₂ : List (Nat × Nat)) (sp : List Nat) (w n : Nat) : Prop :=
  ((ps₁ ++ ps₂).map Prod.fst).Nodup
    ∧ w ∉ (ps₁ ++ ps₂).map Prod.fst
    ∧ sp.Perm ((ps₁ ++ ps₂).map Prod.fst)
    ∧ (∀ x ∈ (ps₁ ++ ps₂).map Prod.fst, x < n)
    ∧ w < n

theorem update_parkedOf (p : Nat × Nat) : Watermelon.update (parkedOf p) = parkedOf p := rfl

theorem update_pmarkOf (i j : Nat) (p : Nat × Nat) :
    Watermelon.update (pmarkOf i j p) = pmarkOf i j p := by
  unfold pmarkOf
  by_cases h : p.1 = i ∨ p.1 = j
  · rw [if_pos h]
    rfl
  · rw [if_neg h]
    rfl

theorem waitingWm_radius (i : Nat) : (waitingWm i).radius = 45 := by
  norm_num [waitingWm, mkWatermelon, calcRadius, MAX_LEVEL]

theorem update_waitingWm (i : Nat) : Watermelon.update (waitingWm i) = waitingWm i := by
  unfold Watermelon.update
  rw [if_pos (show (waitingWm i).state = .waiting from rfl)]
  have hf : (waitingWm i).pos.finite = true := rfl
  rw [if_pos hf]
  have hx : max (waitingWm i).radius (min (waitingWm i).pos.x.q (WIDTH - (waitingWm i).radius))
      = (300 : ℚ) := by
    rw [waitingWm_radius]
    have hq : (waitingWm i).pos.x.q = 300 := rfl
    rw [hq, WIDTH]
    norm_num
  rw [hx]
  rfl

theorem Coord.mid_self (a : ℚ) : Coord.mid (.fin a) (.fin a) = .fin a := by
  simp only [Coord.mid]
  congr 1
  ring

theorem parked_radius_le (p : Nat × Nat) : (parkedOf p).radius ≤ 117 := by
  simp only [parkedOf, mkWatermelon, calcRadius]
  have h1 : min p.2 MAX_LEVEL ≤ 10 := by
    simp [MAX_LEVEL]
  have h2 : ((min p.2 MAX_LEVEL : ℕ) : ℚ) ≤ 10 := by exact_mod_cast h1
  linarith

theorem parked_radius_nonneg (p : Nat × Nat) : 0 ≤ (parkedOf p).radius := by
  simp only [parkedOf, mkWatermelon, calcRadius]
  have h2 : (0 : ℚ) ≤ ((min p.2 MAX_LEVEL : ℕ) : ℚ) := by positivity
  linarith

theorem checkCollision_park_wait (p : Nat × Nat) (i : Nat) :
    checkCollision (parkedOf p) (waitingWm i) = false := by
  have hr1 := parked_radius_le p
  have hr0 := parked_radius_nonneg p
  have hw : (waitingWm i).radius = 45 := waitingWm_radius i
  unfold checkCollision
  have hax : (parkedOf p).pos.x = .fin 300 := rfl
  have hay : (parkedOf p).pos.y = .fin 700 := rfl
  have hbx : (waitingWm i).pos.x = .fin 300 := rfl
  have hby : (waitingWm i).pos.y = .fin 50 := rfl
  rw [hax, hay, hbx, hby]
  dsimp only
  rw [decide_eq_false_iff_not]
  rw [hw]
  intro hlt
  nlinarith [sq_nonneg ((parkedOf p).radius + 45)]

theorem checkCollision_wait_park (p : Nat × Nat) (i : Nat) :
    checkCollision (waitingWm i) (parkedOf p) = false := by
  have hr1 := parked_radius_le p
  have hr0 := parked_radius_nonneg p
  have hw : (waitingWm i).radius = 45 := waitingWm_radius i
  unfold checkCollision
  have hax : (parkedOf p).pos.x = .fin 300 := rfl
  have hay : (parkedOf p).pos.y = .fin 700 := rfl
  have hbx : (waitingWm i).pos.x = .fin 300 := rfl
  have hby : (waitingWm i).pos.y = .fin 50 := rfl
  rw [hax, hay, hbx, hby]
  dsimp only
  rw [decide_eq_false_iff_not]
  rw [hw]
  intro hlt
  nlinarith [sq_nonneg ((parkedOf p).radius + 45)]

theorem map_eq_self_of {α : Type} (l : List α) (f : α → α) (h : ∀ a ∈ l, f a = a) :
    l.map f = l :=
  (List.map_congr_left h).trans (List.map_id l)

theorem handleKeys_false (evs : List GEvent) (g : Game) :
    handleKeys ⟨evs, false, false⟩ g = g := by
  unfold handleKeys
  split
  · rfl
  · rfl

theorem handleInput_null (g : Game) : handleInput nullInput g = g := by
  unfold handleInput nullInput
  exact handleKeys_false [] g

theorem handleInput_drop (g : Game) (h : g.gameOver = false) :
    handleInput dropInput g = releaseWm g := by
  unfold handleInput dropInput
  dsimp only
  rw [List.foldl_cons, List.foldl_nil]
  have he : evStep g GEvent.drop = releaseWm g := by
    simp only [evStep]
    rw [if_neg (by rw [h]; exact Bool.false_ne_true)]
  rw [he]
  have hpairs : (releaseWm g).watermelons = g.watermelons ∨ True := Or.inr trivial
  exact handleKeys_false [GEvent.drop] (releaseWm g)

theorem evictStage_id (g : Game) (h : ∀ wm ∈ g.watermelons, wm.pos.finite = true) :
    evictStage g = g := by
  unfold evictStage
  have hf : g.space.filter (finitePosOk g) = g.space := by
    rw [List.filter_eq_self]
    intro i _
    unfold finitePosOk
    cases hlk : lookupId g.watermelons i with
    | none => rfl
    | some wm => exact h wm (lookupId_eq_some _ _ _ hlk).1
  rw [hf]

theorem moveStage_id (e : Env) (g : Game)
    (h : ∀ wm ∈ g.watermelons, wm.id ∈ g.space →
      ({ wm with pos := e.newPos wm.id } : Watermelon) = wm) :
    moveStage e g = g := by
  unfold moveStage
  have hm : (g.watermelons.map fun wm =>
      if wm.id ∈ g.space then { wm with pos := e.newPos wm.id } else wm) = g.watermelons := by
    refine map_eq_self_of _ _ ?_
    intro wm hwm
    by_cases hin : wm.id ∈ g.space
    · rw [if_pos hin]
      exact h wm hwm hin
    · rw [if_neg hin]
  rw [hm]

theorem collideStage_nil (g : Game) : collideStage parkEnv g = g := rfl

theorem processMerges_of_nil (g : Game) (h : g.mergePairs = []) : processMerges g = g := by
  unfold processMerges
  rw [h]
  rfl

theorem spawnStage_canSpawn (g : Game) (h : g.canSpawn = true) : spawnStage g = g := by
  unfold spawnStage
  rw [if_pos h]

theorem parkedOf_id (p : Nat × Nat) : (parkedOf p).id = p.1 := rfl

theorem waitingWm_id (i : Nat) : (waitingWm i).id = i := rfl

theorem pmarkOf_id (i j : Nat) (p : Nat × Nat) : (pmarkOf i j p).id = p.1 := by
  unfold pmarkOf
  split <;> rfl

theorem lookupId_append_middle (l₁ l₂ : List Watermelon) (x : Watermelon) (i : Nat)
    (h1 : ∀ y ∈ l₁, y.id ≠ i) (hx : x.id = i) :
    lookupId (l₁ ++ x :: l₂) i = some x := by
  induction l₁ with
  | nil =>
      unfold lookupId
      rw [List.nil_append]
      exact List.find?_cons_of_pos _ (by simp [hx])
  | cons a t ih =>
      have ha : (a.id == i) = false :=
        beq_eq_false_iff_ne.mpr (h1 a (List.mem_cons_self _ _))
      unfold lookupId at ih ⊢
      rw [List.cons_append, List.find?_cons_of_neg _ (by simp [ha])]
      exact ih fun y hy => h1 y (List.mem_cons_of_mem _ hy)


/-- The state right after a successful release, before the released piece
(`MOVING`, still at the spawn point) has been parked by the physics step. -/
def relG (ps₁ ps₂ : List (Nat × Nat)) (sp : List Nat) (w n s : Nat) (c : ℚ) : Game :=
  { watermelons :=
      ps₁.map parkedOf ++ ({ waitingWm w with state := .moving } : Watermelon)
        :: ps₂.map parkedOf
    space := sp
    mergePairs := []
    waitingId := w
    score := s
    gameOver := false
    cooldown := c
    canSpawn := false
    nextId := n }

theorem relG_handleInput (ps₁ ps₂ : List (Nat × Nat)) (sp : List Nat) (w n s : Nat)
    (hw1 : w ∉ ps₁.map Prod.fst) (hw2 : w ∉ ps₂.map Prod.fst) :
    handleInput dropInput (readyG ps₁ ps₂ sp w n s)
      = relG ps₁ ps₂ (sp ++ [w]) w n s COOLDOWN_TIME := by
  have hlk : lookupId (readyG ps₁ ps₂ sp w n s).watermelons w = some (waitingWm w) := by
    refine lookupId_append_middle _ _ _ _ ?_ rfl
    intro y hy
    rcases List.mem_map.mp hy with ⟨p, hp, rfl⟩
    rw [parkedOf_id]
    exact fun he => hw1 (he ▸ List.mem_map_of_mem Prod.fst hp)
  have hany : ((readyG ps₁ ps₂ sp w n s).watermelons.any
      fun wm => wm.id != w && checkCollision wm (waitingWm w)) = false := by
    rw [List.any_eq_false]
    intro x hx
    rcases List.mem_append.mp hx with hx1 | hx2
    · rcases List.mem_map.mp hx1 with ⟨p, _, rfl⟩
      simp [checkCollision_park_wait]
    · rcases List.mem_cons.mp hx2 with rfl | hx3
      · simp [waitingWm_id]
      · rcases List.mem_map.mp hx3 with ⟨p, _, rfl⟩
        simp [checkCollision_park_wait]
  have hconv : ((readyG ps₁ ps₂ sp w n s).watermelons.map fun wm =>
      if wm.id = w then convertToDynamic wm else wm)
      = ps₁.map parkedOf ++ ({ waitingWm w with state := .moving } : Watermelon)
          :: ps₂.map parkedOf := by
    show ((ps₁.map parkedOf ++ waitingWm w :: ps₂.map parkedOf).map fun wm =>
      if wm.id = w then convertToDynamic wm else wm) = _
    rw [List.map_append, List.map_cons]
    have e1 : (ps₁.map parkedOf).map
        (fun wm => if wm.id = w then convertToDynamic wm else wm) = ps₁.map parkedOf := by
      refine map_eq_self_of _ _ ?_
      intro a ha
      rcases List.mem_map.mp ha with ⟨p, hp, rfl⟩
      rw [if_neg]
      rw [parkedOf_id]
      exact fun he => hw1 (he ▸ List.mem_map_of_mem Prod.fst hp)
    have e2 : (ps₂.map parkedOf).map
        (fun wm => if wm.id = w then convertToDynamic wm else wm) = ps₂.map parkedOf := by
      refine map_eq_self_of _ _ ?_
      intro a ha
      rcases List.mem_map.mp ha with ⟨p, hp, rfl⟩
      rw [if_neg]
      rw [parkedOf_id]
      exact fun he => hw2 (he ▸ List.mem_map_of_mem Prod.fst hp)
    rw [e1, e2, if_pos (waitingWm_id w)]
    rfl
  rw [handleInput_drop _ rfl]
  unfold releaseWm
  simp only [readyG] at hlk hany hconv ⊢
  rw [hlk]
  dsimp only
  rw [if_neg (by simp [waitingWm, mkWatermelon])]
  rw [if_neg (by rw [hany]; exact Bool.false_ne_true)]
  rw [hconv]
  rfl

theorem relG_fix : ∀ (ps₁ ps₂ : List (Nat × Nat)) (sp : List Nat) (w n s : Nat) (c : ℚ),
    ∀ wm ∈ (relG ps₁ ps₂ sp w n s c).watermelons, Watermelon.update wm = wm := by
  intro ps₁ ps₂ sp w n s c wm hwm
  rcases List.mem_append.mp hwm with hx1 | hx2
  · rcases List.mem_map.mp hx1 with ⟨p, _, rfl⟩
    exact update_parkedOf p
  · rcases List.mem_cons.mp hx2 with rfl | hx3
    · rfl
    · rcases List.mem_map.mp hx3 with ⟨p, _, rfl⟩
      exact update_parkedOf p

theorem relG_fin : ∀ (ps₁ ps₂ : List (Nat × Nat)) (sp : List Nat) (w n s : Nat) (c : ℚ),
    ∀ wm ∈ (relG ps₁ ps₂ sp w n s c).watermelons, wm.pos.finite = true := by
  intro ps₁ ps₂ sp w n s c wm hwm
  rcases List.mem_append.mp hwm with hx1 | hx2
  · rcases List.mem_map.mp hx1 with ⟨p, _, rfl⟩
    rfl
  · rcases List.mem_cons.mp hx2 with rfl | hx3
    · rfl
    · rcases List.mem_map.mp hx3 with ⟨p, _, rfl⟩
      rfl

theorem relG_spawnStage (ps₁ ps₂ : List (Nat × Nat)) (sp : List Nat) (w n s : Nat)
    (c : ℚ) (hc : ¬c - 1 / FPS ≤ 0) :
    spawnStage (relG ps₁ ps₂ sp w n s c) = relG ps₁ ps₂ sp w n s (c - 1 / FPS) := by
  unfold spawnStage
  simp only [relG]
  rw [if_neg (by exact Bool.false_ne_true)]
  rw [if_neg hc]

theorem relG_gameUpdate (ps₁ ps₂ : List (Nat × Nat)) (sp : List Nat) (w n s : Nat)
    (c : ℚ) (hc : ¬c - 1 / FPS ≤ 0) :
    gameUpdate (relG ps₁ ps₂ sp w n s c) = relG ps₁ ps₂ sp w n s (c - 1 / FPS) := by
  unfold gameUpdate
  rw [relG_spawnStage ps₁ ps₂ sp w n s c hc]
  rw [show updateStage (relG ps₁ ps₂ sp w n s (c - 1 / FPS))
      = relG ps₁ ps₂ sp w n s (c - 1 / FPS) from by
    unfold updateStage
    rw [map_eq_self_of _ _ (relG_fix ps₁ ps₂ sp w n s (c - 1 / FPS))]]
  exact processMerges_of_nil _ rfl

theorem relG_physicsStep (ps₁ ps₂ : List (Nat × Nat)) (sp : List Nat) (w n s : Nat)
    (c : ℚ) (hw : w ∈ sp) :
    physicsStep parkEnv (relG ps₁ ps₂ sp w n s c)
      = coolG (ps₁ ++ (w, 1) :: ps₂) sp w n s c := by
  unfold physicsStep
  rw [evictStage_id _ (relG_fin ps₁ ps₂ sp w n s c)]
  rw [collideStage_nil]
  unfold moveStage relG coolG
  dsimp only
  rw [List.map_append, List.map_cons, List.map_append, List.map_cons]
  have e1 : (ps₁.map parkedOf).map (fun wm =>
      if wm.id ∈ sp then ({ wm with pos := parkEnv.newPos wm.id } : Watermelon) else wm)
      = ps₁.map parkedOf := by
    refine map_eq_self_of _ _ ?_
    intro a ha
    rcases List.mem_map.mp ha with ⟨p, _, rfl⟩
    by_cases hin : (parkedOf p).id ∈ sp
    · rw [if_pos hin]
      rfl
    · rw [if_neg hin]
  have e2 : (ps₂.map parkedOf).map (fun wm =>
      if wm.id ∈ sp then ({ wm with pos := parkEnv.newPos wm.id } : Watermelon) else wm)
      = ps₂.map parkedOf := by
    refine map_eq_self_of _ _ ?_
    intro a ha
    rcases List.mem_map.mp ha with ⟨p, _, rfl⟩
    by_cases hin : (parkedOf p).id ∈ sp
    · rw [if_pos hin]
      rfl
    · rw [if_neg hin]
  rw [e1, e2]
  congr 1
  congr 1
  rw [if_pos (show ({ waitingWm w with state := .moving } : Watermelon).id ∈ sp from hw)]
  rfl

theorem frame_release (ps₁ ps₂ : List (Nat × Nat)) (sp : List Nat) (w n s : Nat)
    (hw1 : w ∉ ps₁.map Prod.fst) (hw2 : w ∉ ps₂.map Prod.fst) :
    frame parkEnv dropInput (readyG ps₁ ps₂ sp w n s)
      = coolG (ps₁ ++ (w, 1) :: ps₂) (sp ++ [w]) w n s (COOLDOWN_TIME - 1 / FPS) := by
  rw [frame, relG_handleInput ps₁ ps₂ sp w n s hw1 hw2]
  rw [if_neg (by exact Bool.false_ne_true)]
  rw [relG_gameUpdate _ _ _ _ _ _ _ (by norm_num [COOLDOWN_TIME, FPS])]
  exact relG_physicsStep _ _ _ _ _ _ _ (List.mem_append_right _ (List.mem_singleton_self _))

theorem coolG_fix (qs : List (Nat × Nat)) (sp : List Nat) (w n s : Nat) (c : ℚ) :
    ∀ wm ∈ (coolG qs sp w n s c).watermelons, Watermelon.update wm = wm := by
  intro wm hwm
  rcases List.mem_map.mp hwm with ⟨p, _, rfl⟩
  exact update_parkedOf p

theorem coolG_fin (qs : List (Nat × Nat)) (sp : List Nat) (w n s : Nat) (c : ℚ) :
    ∀ wm ∈ (coolG qs sp w n s c).watermelons, wm.pos.finite = true := by
  intro wm hwm
  rcases List.mem_map.mp hwm with ⟨p, _, rfl⟩
  rfl

theorem coolG_moveStage (qs : List (Nat × Nat)) (sp : List Nat) (w n s : Nat) (c : ℚ) :
    moveStage parkEnv (coolG qs sp w n s c) = coolG qs sp w n s c := by
  refine moveStage_id _ _ ?_
  intro wm hwm _
  rcases List.mem_map.mp hwm with ⟨p, _, rfl⟩
  rfl

theorem frame_cool (qs : List (Nat × Nat)) (sp : List Nat) (w n s : Nat) (c : ℚ)
    (hc : ¬c - 1 / FPS ≤ 0) :
    frame parkEnv nullInput (coolG qs sp w n s c) = coolG qs sp w n s (c - 1 / FPS) := by
  rw [frame, handleInput_null]
  rw [if_neg (show ¬(coolG qs sp w n s c).gameOver = true from Bool.false_ne_true)]
  have hsp : spawnStage (coolG qs sp w n s c) = coolG qs sp w n s (c - 1 / FPS) := by
    unfold spawnStage
    simp only [coolG]
    rw [if_neg (by exact Bool.false_ne_true)]
    rw [if_neg hc]
  unfold gameUpdate
  rw [hsp]
  rw [show updateStage (coolG qs sp w n s (c - 1 / FPS)) = coolG qs sp w n s (c - 1 / FPS)
    from by
      unfold updateStage
      rw [map_eq_self_of _ _ (coolG_fix qs sp w n s (c - 1 / FPS))]]
  rw [processMerges_of_nil _ rfl]
  unfold physicsStep
  rw [evictStage_id _ (coolG_fin qs sp w n s (c - 1 / FPS))]
  rw [collideStage_nil]
  exact coolG_moveStage qs sp w n s (c - 1 / FPS)

theorem frame_spawn (qs : List (Nat × Nat)) (sp : List Nat) (w n s : Nat) (c : ℚ)
    (hc : c - 1 / FPS = 0) (hn : n ∉ sp) :
    frame parkEnv nullInput (coolG qs sp w n s c) = readyG qs [] sp n (n + 1) s := by
  rw [frame, handleInput_null]
  rw [if_neg (show ¬(coolG qs sp w n s c).gameOver = true from Bool.false_ne_true)]
  have hall : ((coolG qs sp w n s c).watermelons.all fun wm =>
      !checkCollision (mkWatermelon ⟨.fin 300, .fin 50⟩ 1 .waiting
        (coolG qs sp w n s c).nextId) wm) = true := by
    rw [List.all_eq_true]
    intro x hx
    rcases List.mem_map.mp hx with ⟨p, _, rfl⟩
    have hcw : checkCollision (mkWatermelon ⟨.fin 300, .fin 50⟩ 1 .waiting
        (coolG qs sp w n s c).nextId) (parkedOf p) = false :=
      checkCollision_wait_park p (coolG qs sp w n s c).nextId
    rw [hcw]
    rfl
  have hsp : spawnStage (coolG qs sp w n s c)
      = {
          watermelons := qs.map parkedOf ++ [waitingWm n]
          space := sp
          mergePairs := []
          waitingId := n
          score := s
          gameOver := false
          cooldown := 0
          canSpawn := true
          nextId := n + 1 } := by
    unfold spawnStage
    rw [if_neg (show ¬(coolG qs sp w n s c).canSpawn = true from Bool.false_ne_true)]
    dsimp only
    rw [if_pos (show (coolG qs sp w n s c).cooldown - 1 / FPS ≤ 0 from le_of_eq hc)]
    rw [if_pos hall]
    show ({
            watermelons := (coolG qs sp w n s c).watermelons ++ [waitingWm n]
            space := sp
            mergePairs := []
            waitingId := n
            score := s
            gameOver := false
            cooldown := (coolG qs sp w n s c).cooldown - 1 / FPS
            canSpawn := true
            nextId := n + 1 } : Game) = _
    rw [show (coolG qs sp w n s c).cooldown - 1 / FPS = 0 from hc]
    rfl
  unfold gameUpdate
  rw [hsp]
  have hfix : ∀ wm ∈ qs.map parkedOf ++ [waitingWm n], Watermelon.update wm = wm := by
    intro wm hwm
    rcases List.mem_append.mp hwm with h | h
    · rcases List.mem_map.mp h with ⟨p, _, rfl⟩
      exact update_parkedOf p
    · rcases List.mem_singleton.mp h with rfl
      exact update_waitingWm n
  have hfin : ∀ wm ∈ qs.map parkedOf ++ [waitingWm n], wm.pos.finite = true := by
    intro wm hwm
    rcases List.mem_append.mp hwm with h | h
    · rcases List.mem_map.mp h with ⟨p, _, rfl⟩
      rfl
    · rcases List.mem_singleton.mp h with rfl
      rfl
  rw [show updateStage {
        watermelons := qs.map parkedOf ++ [waitingWm n]
        space := sp
        mergePairs := []
        waitingId := n
        score := s
        gameOver := false
        cooldown := 0
        canSpawn := true
        nextId := n + 1 }
      = {
          watermelons := qs.map parkedOf ++ [waitingWm n]
          space := sp
          mergePairs := []
          waitingId := n
          score := s
          gameOver := false
          cooldown := 0
          canSpawn := true
          nextId := n + 1 } from by
    unfold updateStage
    rw [map_eq_self_of _ _ hfix]]
  rw [processMerges_of_nil _ rfl]
  unfold physicsStep
  rw [evictStage_id _ hfin]
  rw [collideStage_nil]
  refine (moveStage_id _ _ ?_).trans ?_
  · intro wm hwm hin
    rcases List.mem_append.mp hwm with h | h
    · rcases List.mem_map.mp h with ⟨p, _, rfl⟩
      rfl
    · rcases List.mem_singleton.mp h with rfl
      exact absurd hin hn
  · rfl

theorem frame_cool_iter (k : Nat) :
    ∀ (qs : List (Nat × Nat)) (sp : List Nat) (w n s : Nat) (c : ℚ),
    0 < c - k / 60 → Reachable (coolG qs sp w n s c) →
    Reachable (coolG qs sp w n s (c - k / 60)) := by
  induction k with
  | zero =>
      intro qs sp w n s c _ hr
      have he : c - (0 : ℕ) / 60 = c := by push_cast; ring
      rw [he]
      exact hr
  | succ k ih =>
      intro qs sp w n s c h hr
      have hk : (0 : ℚ) ≤ k := by positivity
      have hsucc : ((k + 1 : ℕ) : ℚ) = (k : ℚ) + 1 := by push_cast; ring
      have h1 : ¬c - 1 / FPS ≤ 0 := by
        rw [FPS]
        rw [hsucc] at h
        intro hle
        nlinarith
      have hr2 : Reachable (coolG qs sp w n s (c - 1 / FPS)) := by
        have := Reachable.step parkEnv nullInput hr
        rwa [frame_cool qs sp w n s c h1] at this
      have h2 : 0 < c - 1 / FPS - (k : ℚ) / 60 := by
        rw [FPS]
        rw [hsucc] at h
        linarith
      have h3 := ih qs sp w n s (c - 1 / FPS) h2 hr2
      have he : c - 1 / FPS - (k : ℚ) / 60 = c - ((k + 1 : ℕ) : ℚ) / 60 := by
        rw [FPS, hsucc]
        ring
      rwa [he] at h3

theorem releaseCycle (ps₁ ps₂ : List (Nat × Nat)) (sp : List Nat) (w n s : Nat)
    (hr : Reachable (readyG ps₁ ps₂ sp w n s))
    (hw1 : w ∉ ps₁.map Prod.fst) (hw2 : w ∉ ps₂.map Prod.fst)
    (hnsp : n ∉ sp) (hnw : n ≠ w) :
    Reachable (readyG (ps₁ ++ (w, 1) :: ps₂) [] (sp ++ [w]) n (n + 1) s) := by
  have h1 : Reachable (coolG (ps₁ ++ (w, 1) :: ps₂) (sp ++ [w]) w n s
      (COOLDOWN_TIME - 1 / FPS)) := by
    have := Reachable.step parkEnv dropInput hr
    rwa [frame_release ps₁ ps₂ sp w n s hw1 hw2] at this
  rw [show COOLDOWN_TIME - 1 / FPS = (59 : ℚ) / 60 from by norm_num [COOLDOWN_TIME, FPS]]
    at h1
  have h2 := frame_cool_iter 58 _ _ w n s _ (by norm_num) h1
  rw [show (59 : ℚ) / 60 - ((58 : ℕ) : ℚ) / 60 = 1 / 60 from by norm_num] at h2
  have hn2 : n ∉ sp ++ [w] := by
    intro hmem
    rcases List.mem_append.mp hmem with h | h
    · exact hnsp h
    · exact hnw (List.mem_singleton.mp h)
  have h3 := frame_spawn (ps₁ ++ (w, 1) :: ps₂) (sp ++ [w]) w n s (1 / 60)
    (by norm_num [FPS]) hn2
  have := Reachable.step parkEnv nullInput h2
  rwa [h3] at this

theorem eraseP_map_key (f : Nat × Nat → Watermelon) (hf : ∀ p, (f p).id = p.1)
    (k : Nat) (l : List (Nat × Nat)) :
    (l.map f).eraseP (fun wm => wm.id == k) = (l.eraseP fun q => q.1 == k).map f := by
  rw [List.eraseP_map]
  have hp : ((fun wm => wm.id == k) ∘ f) = fun q => q.1 == k := by
    funext q
    show ((f q).id == k) = (q.1 == k)
    rw [hf]
  rw [hp]

theorem mem_eraseP_key_of_ne (l : List (Nat × Nat)) (k : Nat) (x : Nat × Nat)
    (hx : x ∈ l) (hne : x.1 ≠ k) : x ∈ l.eraseP fun q => q.1 == k := by
  induction l with
  | nil => cases hx
  | cons a t ih =>
      by_cases ha : (a.1 == k) = true
      · rw [List.eraseP_cons_of_pos (p := fun (q : Nat × Nat) => q.1 == k) ha]
        rcases List.mem_cons.mp hx with rfl | hxt
        · exact absurd (by simpa using ha) hne
        · exact hxt
      · rw [List.eraseP_cons_of_neg (p := fun (q : Nat × Nat) => q.1 == k) ha]
        rcases List.mem_cons.mp hx with rfl | hxt
        · exact List.mem_cons_self _ _
        · exact List.mem_cons_of_mem _ (ih hxt)

theorem eraseP_key_no_key (l : List (Nat × Nat)) (k : Nat)
    (hn : (l.map Prod.fst).Nodup) :
    ∀ x ∈ l.eraseP (fun q => q.1 == k), x.1 ≠ k := by
  induction l with
  | nil => intro x hx; cases hx
  | cons a t ih =>
      simp only [List.map_cons, List.nodup_cons] at hn
      by_cases ha : (a.1 == k) = true
      · rw [List.eraseP_cons_of_pos (p := fun (q : Nat × Nat) => q.1 == k) ha]
        intro x hx he
        have hak : a.1 = k := by simpa using ha
        exact hn.1 (by rw [hak, ← he]; exact List.mem_map_of_mem Prod.fst hx)
      · rw [List.eraseP_cons_of_neg (p := fun (q : Nat × Nat) => q.1 == k) ha]
        intro x hx
        rcases List.mem_cons.mp hx with rfl | hxt
        · simpa using ha
        · exact ih hn.2 x hxt

theorem eraseP_key_map_fst (l : List (Nat × Nat)) (k : Nat) :
    (l.eraseP fun q => q.1 == k).map Prod.fst = (l.map Prod.fst).erase k := by
  rw [List.erase_eq_eraseP', List.eraseP_map]
  rfl

theorem key_snoc_nodup (l : List (Nat × Nat)) (w v : Nat)
    (hnd : (l.map Prod.fst).Nodup) (hw : w ∉ l.map Prod.fst) :
    ((l ++ [(w, v)]).map Prod.fst).Nodup := by
  rw [List.map_append]
  exact hnd.append (List.nodup_singleton w)
    (fun a ha hb => hw (by
      have haw : a = w := List.mem_singleton.mp hb
      rwa [haw] at ha))

theorem ready0_ids_nodup (ps : List (Nat × Nat)) (w : Nat)
    (hnd : (ps.map Prod.fst).Nodup) (hw : w ∉ ps.map Prod.fst) :
    ((ps.map parkedOf ++ [waitingWm w]).map Watermelon.id).Nodup := by
  have he : (ps.map parkedOf ++ [waitingWm w]).map Watermelon.id
      = ps.map Prod.fst ++ [w] := by
    rw [List.map_append, List.map_map]
    rfl
  rw [he]
  exact hnd.append (List.nodup_singleton w) (fun a ha hb => hw (by
    have haw : a = w := List.mem_singleton.mp hb
    rwa [haw] at ha))

theorem lookup_ready0 (ps : List (Nat × Nat)) (w i L : Nat)
    (hnd : (ps.map Prod.fst).Nodup) (hw : w ∉ ps.map Prod.fst) (hmem : (i, L) ∈ ps) :
    lookupId (ps.map parkedOf ++ [waitingWm w]) i = some (parkedOf (i, L)) := by
  have hm : parkedOf (i, L) ∈ ps.map parkedOf ++ [waitingWm w] :=
    List.mem_append_left _ (List.mem_map_of_mem parkedOf hmem)
  exact lookupId_of_mem _ _ (ready0_ids_nodup ps w hnd hw) hm

theorem marked0_ids_nodup (ps : List (Nat × Nat)) (w i j : Nat)
    (hnd : (ps.map Prod.fst).Nodup) (hw : w ∉ ps.map Prod.fst) :
    ((ps.map (pmarkOf i j) ++ [waitingWm w]).map Watermelon.id).Nodup := by
  have he : (ps.map (pmarkOf i j) ++ [waitingWm w]).map Watermelon.id
      = ps.map Prod.fst ++ [w] := by
    rw [List.map_append, List.map_map]
    have h1 : ps.map (Watermelon.id ∘ pmarkOf i j) = ps.map Prod.fst :=
      List.map_congr_left fun p _ => pmarkOf_id i j p
    rw [h1]
    rfl
  rw [he]
  exact hnd.append (List.nodup_singleton w) (fun a ha hb => hw (by
    have haw : a = w := List.mem_singleton.mp hb
    rwa [haw] at ha))

theorem lookup_marked0 (ps : List (Nat × Nat)) (w i j k L : Nat)
    (hnd : (ps.map Prod.fst).Nodup) (hw : w ∉ ps.map Prod.fst) (hmem : (k, L) ∈ ps) :
    lookupId (ps.map (pmarkOf i j) ++ [waitingWm w]) k = some (pmarkOf i j (k, L)) := by
  have hm : pmarkOf i j (k, L) ∈ ps.map (pmarkOf i j) ++ [waitingWm w] :=
    List.mem_append_left _ (List.mem_map_of_mem (pmarkOf i j) hmem)
  have h := lookupId_of_mem _ _ (marked0_ids_nodup ps w i j hnd hw) hm
  rwa [pmarkOf_id] at h

theorem ready_fix : ∀ (ps₁ ps₂ : List (Nat × Nat)) (sp : List Nat) (w n s : Nat),
    ∀ wm ∈ (readyG ps₁ ps₂ sp w n s).watermelons, Watermelon.update wm = wm := by
  intro ps₁ ps₂ sp w n s wm hwm
  rcases List.mem_append.mp hwm with hx1 | hx2
  · rcases List.mem_map.mp hx1 with ⟨p, _, rfl⟩
    exact update_parkedOf p
  · rcases List.mem_cons.mp hx2 with rfl | hx3
    · exact update_waitingWm w
    · rcases List.mem_map.mp hx3 with ⟨p, _, rfl⟩
      exact update_parkedOf p

theorem ready_fin : ∀ (ps₁ ps₂ : List (Nat × Nat)) (sp : List Nat) (w n s : Nat),
    ∀ wm ∈ (readyG ps₁ ps₂ sp w n s).watermelons, wm.pos.finite = true := by
  intro ps₁ ps₂ sp w n s wm hwm
  rcases List.mem_append.mp hwm with hx1 | hx2
  · rcases List.mem_map.mp hx1 with ⟨p, _, rfl⟩
    rfl
  · rcases List.mem_cons.mp hx2 with rfl | hx3
    · rfl
    · rcases List.mem_map.mp hx3 with ⟨p, _, rfl⟩
      rfl

theorem marked_fix : ∀ (ps₁ ps₂ : List (Nat × Nat)) (sp : List Nat) (w n s i j : Nat),
    ∀ wm ∈ (markedG ps₁ ps₂ sp w n s i j).watermelons, Watermelon.update wm = wm := by
  intro ps₁ ps₂ sp w n s i j wm hwm
  rcases List.mem_append.mp hwm with hx1 | hx2
  · rcases List.mem_map.mp hx1 with ⟨p, _, rfl⟩
    exact update_pmarkOf i j p
  · rcases List.mem_cons.mp hx2 with rfl | hx3
    · exact update_waitingWm w
    · rcases List.mem_map.mp hx3 with ⟨p, _, rfl⟩
      exact update_pmarkOf i j p

theorem pmarkOf_pos (i j : Nat) (p : Nat × Nat) : (pmarkOf i j p).pos = parkPos := by
  unfold pmarkOf
  split <;> rfl

theorem marked_fin : ∀ (ps₁ ps₂ : List (Nat × Nat)) (sp : List Nat) (w n s i j : Nat),
    ∀ wm ∈ (markedG ps₁ ps₂ sp w n s i j).watermelons, wm.pos.finite = true := by
  intro ps₁ ps₂ sp w n s i j wm hwm
  rcases List.mem_append.mp hwm with hx1 | hx2
  · rcases List.mem_map.mp hx1 with ⟨p, _, rfl⟩
    rw [pmarkOf_pos]
    rfl
  · rcases List.mem_cons.mp hx2 with rfl | hx3
    · rfl
    · rcases List.mem_map.mp hx3 with ⟨p, _, rfl⟩
      rw [pmarkOf_pos]
      rfl

theorem ready_gameUpdate (ps₁ ps₂ : List (Nat × Nat)) (sp : List Nat) (w n s : Nat) :
    gameUpdate (readyG ps₁ ps₂ sp w n s) = readyG ps₁ ps₂ sp w n s := by
  unfold gameUpdate
  rw [spawnStage_canSpawn _ rfl]
  rw [show updateStage (readyG ps₁ ps₂ sp w n s) = readyG ps₁ ps₂ sp w n s from by
    unfold updateStage
    rw [map_eq_self_of _ _ (ready_fix ps₁ ps₂ sp w n s)]]
  exact processMerges_of_nil _ rfl

theorem ready_moveStage (e : Env) (ps₁ ps₂ : List (Nat × Nat)) (sp : List Nat)
    (w n s : Nat) (he : ∀ k, e.newPos k = parkPos) (hwsp : w ∉ sp) :
    moveStage e (readyG ps₁ ps₂ sp w n s) = readyG ps₁ ps₂ sp w n s := by
  refine moveStage_id _ _ ?_
  intro wm hwm hin
  rcases List.mem_append.mp hwm with hx1 | hx2
  · rcases List.mem_map.mp hx1 with ⟨p, _, rfl⟩
    rw [he]
    rfl
  · rcases List.mem_cons.mp hx2 with rfl | hx3
    · exact absurd hin hwsp
    · rcases List.mem_map.mp hx3 with ⟨p, _, rfl⟩
      rw [he]
      rfl

theorem ready_physicsStep (ps₁ ps₂ : List (Nat × Nat)) (sp : List Nat)
    (w n s : Nat) (hwsp : w ∉ sp) :
    physicsStep parkEnv (readyG ps₁ ps₂ sp w n s) = readyG ps₁ ps₂ sp w n s := by
  unfold physicsStep
  rw [evictStage_id _ (ready_fin ps₁ ps₂ sp w n s)]
  rw [collideStage_nil]
  exact ready_moveStage parkEnv ps₁ ps₂ sp w n s (fun k => rfl) hwsp

theorem marked_moveStage (e : Env) (ps₁ ps₂ : List (Nat × Nat)) (sp : List Nat)
    (w n s i j : Nat) (he : ∀ k, e.newPos k = parkPos) (hwsp : w ∉ sp) :
    moveStage e (markedG ps₁ ps₂ sp w n s i j) = markedG ps₁ ps₂ sp w n s i j := by
  refine moveStage_id _ _ ?_
  intro wm hwm hin
  rcases List.mem_append.mp hwm with hx1 | hx2
  · rcases List.mem_map.mp hx1 with ⟨p, _, rfl⟩
    rw [he]
    unfold pmarkOf
    split <;> rfl
  · rcases List.mem_cons.mp hx2 with rfl | hx3
    · exact absurd hin hwsp
    · rcases List.mem_map.mp hx3 with ⟨p, _, rfl⟩
      rw [he]
      unfold pmarkOf
      split <;> rfl

theorem parkedOf_state (p : Nat × Nat) : (parkedOf p).state = WMState.moving := rfl

theorem frame_fire (ps : List (Nat × Nat)) (sp : List Nat) (w n s i j L : Nat)
    (hnd : (ps.map Prod.fst).Nodup) (hw : w ∉ ps.map Prod.fst) (hwsp : w ∉ sp)
    (hij : i ≠ j) (hisp : i ∈ sp) (hjsp : j ∈ sp)
    (hiL : (i, L) ∈ ps) (hjL : (j, L) ∈ ps) :
    frame (fireEnv i j) nullInput (readyG ps [] sp w n s)
      = markedG ps [] sp w n s i j := by
  rw [frame, handleInput_null]
  rw [if_neg (show ¬(readyG ps [] sp w n s).gameOver = true from Bool.false_ne_true)]
  rw [ready_gameUpdate]
  unfold physicsStep
  rw [evictStage_id _ (ready_fin ps [] sp w n s)]
  have hcs : collideStage (fireEnv i j) (readyG ps [] sp w n s)
      = collide (readyG ps [] sp w n s) (i, j) := rfl
  rw [hcs]
  have hwi : w ≠ i := fun he => hw (by rw [he]; exact List.mem_map_of_mem Prod.fst hiL)
  have hwj : w ≠ j := fun he => hw (by rw [he]; exact List.mem_map_of_mem Prod.fst hjL)
  have hcol : collide (readyG ps [] sp w n s) (i, j) = markedG ps [] sp w n s i j := by
    unfold collide
    dsimp only [readyG, markedG, List.map_nil, List.nil_append]
    rw [if_pos (show i ≠ j ∧ i ∈ sp ∧ j ∈ sp from ⟨hij, hisp, hjsp⟩)]
    rw [lookup_ready0 ps w i L hnd hw hiL, lookup_ready0 ps w j L hnd hw hjL]
    dsimp only
    rw [if_pos (show (parkedOf (i, L)).level = (parkedOf (j, L)).level
        ∧ (parkedOf (i, L)).merged = false ∧ (parkedOf (j, L)).merged = false
        ∧ (parkedOf (i, L)).state ≠ WMState.waiting
        ∧ (parkedOf (j, L)).state ≠ WMState.waiting from
      ⟨rfl, rfl, rfl, by rw [parkedOf_state]; decide, by rw [parkedOf_state]; decide⟩)]
    have hmark : (ps.map parkedOf ++ [waitingWm w]).map
        (fun wm => if wm.id = i ∨ wm.id = j then { wm with merged := true } else wm)
        = ps.map (pmarkOf i j) ++ [waitingWm w] := by
      rw [List.map_append]
      congr 1
      · rw [List.map_map]
        exact List.map_congr_left fun p _ => rfl
      · rw [List.map_cons, List.map_nil]
        rw [if_neg (show ¬((waitingWm w).id = i ∨ (waitingWm w).id = j) from
          fun hor => hor.elim hwi hwj)]
    rw [hmark]
  rw [hcol]
  exact marked_moveStage (fireEnv i j) ps [] sp w n s i j (fun k => rfl) hwsp

theorem frame_process (ps : List (Nat × Nat)) (sp : List Nat) (w n s i j L : Nat)
    (hnd : (ps.map Prod.fst).Nodup) (hw : w ∉ ps.map Prod.fst) (hwsp : w ∉ sp)
    (hwn : w ≠ n) (hij : i ≠ j) (hiL : (i, L) ∈ ps) (hjL : (j, L) ∈ ps) :
    frame parkEnv nullInput (markedG ps [] sp w n s i j)
      = readyG ((ps.eraseP fun q => q.1 == i).eraseP fun q => q.1 == j)
          [(n, min L MAX_LEVEL + 1)] ((sp.erase i).erase j ++ [n]) w (n + 1)
          (max s (min L MAX_LEVEL + 1)) := by
  have hpm1 : pmarkOf i j (i, L) = { parkedOf (i, L) with merged := true } := by
    unfold pmarkOf
    rw [if_pos (Or.inl rfl)]
  have hpm2 : pmarkOf i j (j, L) = { parkedOf (j, L) with merged := true } := by
    unfold pmarkOf
    rw [if_pos (Or.inr rfl)]
  have hlev : (pmarkOf i j (i, L)).level = min L MAX_LEVEL := by
    rw [hpm1]
    rfl
  have hpos1 : (pmarkOf i j (i, L)).pos = parkPos := pmarkOf_pos i j (i, L)
  have hpos2 : (pmarkOf i j (j, L)).pos = parkPos := pmarkOf_pos i j (j, L)
  have hlki : lookupId (markedG ps [] sp w n s i j).watermelons i
      = some (pmarkOf i j (i, L)) := lookup_marked0 ps w i j i L hnd hw hiL
  have hlkj : lookupId (markedG ps [] sp w n s i j).watermelons j
      = some (pmarkOf i j (j, L)) := lookup_marked0 ps w i j j L hnd hw hjL
  have heA : (markedG ps [] sp w n s i j).watermelons.eraseP (fun wm => wm.id == i)
      = (ps.eraseP fun q => q.1 == i).map (pmarkOf i j) ++ [waitingWm w] := by
    show (ps.map (pmarkOf i j) ++ [waitingWm w]).eraseP (fun wm => wm.id == i) = _
    rw [List.eraseP_append_left (by simp [pmarkOf_id]) _
      (List.mem_map_of_mem (pmarkOf i j) hiL)]
    rw [eraseP_map_key (pmarkOf i j) (pmarkOf_id i j) i ps]
  have hmemj : (j, L) ∈ ps.eraseP fun q => q.1 == i :=
    mem_eraseP_key_of_ne ps i (j, L) hjL (fun he => hij he.symm)
  have heB : ((ps.eraseP fun q => q.1 == i).map (pmarkOf i j) ++ [waitingWm w]).eraseP
      (fun wm => wm.id == j)
      = ((ps.eraseP fun q => q.1 == i).eraseP fun q => q.1 == j).map (pmarkOf i j)
        ++ [waitingWm w] := by
    rw [List.eraseP_append_left (by simp [pmarkOf_id]) _
      (List.mem_map_of_mem (pmarkOf i j) hmemj)]
    rw [eraseP_map_key (pmarkOf i j) (pmarkOf_id i j) j _]
  have hCnd1 : ((ps.eraseP fun q => q.1 == i).map Prod.fst).Nodup :=
    hnd.sublist ((List.eraseP_sublist ps).map Prod.fst)
  have hCconv : (((ps.eraseP fun q => q.1 == i).eraseP fun q => q.1 == j).map (pmarkOf i j))
      = ((ps.eraseP fun q => q.1 == i).eraseP fun q => q.1 == j).map parkedOf := by
    refine List.map_congr_left ?_
    intro q hq
    have hqj : q.1 ≠ j := eraseP_key_no_key _ j hCnd1 q hq
    have hqi : q.1 ≠ i := eraseP_key_no_key ps i hnd q (List.mem_of_mem_eraseP hq)
    unfold pmarkOf
    rw [if_neg (fun hor => hor.elim hqi hqj)]
  have hproj1 : (markedG ps [] sp w n s i j).space = sp := rfl
  have hproj2 : (markedG ps [] sp w n s i j).mergePairs = [(i, j)] := rfl
  have hproj3 : (markedG ps [] sp w n s i j).nextId = n := rfl
  have hproj4 : (markedG ps [] sp w n s i j).score = s := rfl
  have hproj5 : (markedG ps [] sp w n s i j).waitingId = w := rfl
  have hproj6 : (markedG ps [] sp w n s i j).gameOver = false := rfl
  have hproj7 : (markedG ps [] sp w n s i j).cooldown = 0 := rfl
  have hproj8 : (markedG ps [] sp w n s i j).canSpawn = true := rfl
  have hpp : processMerges (markedG ps [] sp w n s i j)
      = readyG ((ps.eraseP fun q => q.1 == i).eraseP fun q => q.1 == j)
          [(n, min L MAX_LEVEL + 1)] ((sp.erase i).erase j ++ [n]) w (n + 1)
          (max s (min L MAX_LEVEL + 1)) := by
    have hfold : processMerges (markedG ps [] sp w n s i j)
        = processPair (markedG ps [] sp w n s i j) (i, j) := rfl
    rw [hfold]
    simp only [processPair, hlki, hlkj, hlev, hpos1, hpos2, parkPos, Coord.mid_self,
      hproj1, hproj2, hproj3, hproj4, hproj5, hproj6, hproj7, hproj8,
      List.erase_cons_head]
    rw [heA, heB, hCconv]
    rw [show mkWatermelon ⟨Coord.fin 300, Coord.fin 700⟩ (min L MAX_LEVEL + 1)
        WMState.moving n = parkedOf (n, min L MAX_LEVEL + 1) from rfl]
    rw [List.append_assoc]
    rfl
  have hwsp2 : w ∉ (sp.erase i).erase j ++ [n] := by
    intro hmem
    rcases List.mem_append.mp hmem with hm1 | hm2
    · exact hwsp (List.erase_subset _ _ (List.erase_subset _ _ hm1))
    · exact hwn (List.mem_singleton.mp hm2)
  rw [frame, handleInput_null]
  rw [if_neg (show ¬(markedG ps [] sp w n s i j).gameOver = true from Bool.false_ne_true)]
  unfold gameUpdate
  rw [spawnStage_canSpawn _ rfl]
  rw [show updateStage (markedG ps [] sp w n s i j) = markedG ps [] sp w n s i j from by
    unfold updateStage
    rw [map_eq_self_of _ _ (marked_fix ps [] sp w n s i j)]]
  rw [hpp]
  exact ready_physicsStep _ _ _ w (n + 1) _ hwsp2

theorem mergeCycle (ps : List (Nat × Nat)) (sp : List Nat) (w n s i j L : Nat)
    (hr : Reachable (readyG ps [] sp w n s))
    (hnd : (ps.map Prod.fst).Nodup) (hw : w ∉ ps.map Prod.fst)
    (hsp : sp.Perm (ps.map Prod.fst)) (hwn : w ≠ n)
    (hij : i ≠ j) (hiL : (i, L) ∈ ps) (hjL : (j, L) ∈ ps) :
    Reachable (readyG ((ps.eraseP fun q => q.1 == i).eraseP fun q => q.1 == j)
      [(n, min L MAX_LEVEL + 1)] ((sp.erase i).erase j ++ [n]) w (n + 1)
      (max s (min L MAX_LEVEL + 1))) := by
  have hwsp : w ∉ sp := fun hmem => hw (hsp.mem_iff.mp hmem)
  have hisp : i ∈ sp := hsp.mem_iff.mpr (List.mem_map_of_mem Prod.fst hiL)
  have hjsp : j ∈ sp := hsp.mem_iff.mpr (List.mem_map_of_mem Prod.fst hjL)
  have h1 := Reachable.step (fireEnv i j) nullInput hr
  rw [frame_fire ps sp w n s i j L hnd hw hwsp hij hisp hjsp hiL hjL] at h1
  have h2 := Reachable.step parkEnv nullInput h1
  rwa [frame_process ps sp w n s i j L hnd hw hwsp hwn hij hiL hjL] at h2

theorem buildAux : ∀ (L : Nat), 1 ≤ L → L ≤ 10 →
    ∀ (ps : List (Nat × Nat)) (sp : List Nat) (w n s : Nat),
    Reachable (readyG ps [] sp w n s) →
    (ps.map Prod.fst).Nodup → w ∉ ps.map Prod.fst → sp.Perm (ps.map Prod.fst) →
    (∀ x ∈ ps.map Prod.fst, x < n) → w < n →
    ∃ (ps' : List (Nat × Nat)) (sp' : List Nat) (w' n' s' i : Nat),
      Reachable (readyG ps' [] sp' w' n' s') ∧
      (ps'.map Prod.fst).Nodup ∧ w' ∉ ps'.map Prod.fst ∧ sp'.Perm (ps'.map Prod.fst) ∧
      (∀ x ∈ ps'.map Prod.fst, x < n') ∧ w' < n' ∧
      (i, L) ∈ ps' ∧ i ∉ ps.map Prod.fst ∧ n ≤ n' ∧ ∀ e ∈ ps, e ∈ ps' := by
  intro L
  induction L with
  | zero => exact fun h => absurd h (by omega)
  | succ K ih =>
      intro _ hK10 ps sp w n s hr hnd hw hsp hlt hwn
      by_cases hK : K = 0
      · subst hK
        have hnsp : n ∉ sp := fun hm => absurd (hlt n (hsp.mem_iff.mp hm)) (lt_irrefl n)
        have hrel := releaseCycle ps [] sp w n s hr hw (List.not_mem_nil w) hnsp (by omega)
        have hkeys0 : (ps ++ [(w, 1)]).map Prod.fst = ps.map Prod.fst ++ [w] := by
          rw [List.map_append]
          rfl
        refine ⟨ps ++ [(w, 1)], sp ++ [w], n, n + 1, s, w, hrel,
          key_snoc_nodup ps w 1 hnd hw, ?_, ?_, ?_, by omega, ?_, hw, by omega, ?_⟩
        · rw [hkeys0]
          intro hm
          rcases List.mem_append.mp hm with h1 | h2
          · exact absurd (hlt n h1) (lt_irrefl n)
          · have : n = w := List.mem_singleton.mp h2
            omega
        · rw [hkeys0]
          exact hsp.append (List.Perm.refl [w])
        · intro x hx
          rw [hkeys0] at hx
          rcases List.mem_append.mp hx with h1 | h2
          · have := hlt x h1
            omega
          · have : x = w := List.mem_singleton.mp h2
            omega
        · exact List.mem_append_right _ (List.mem_cons_self _ _)
        · exact fun e he => List.mem_append_left _ he
      · have hK1 : 1 ≤ K := Nat.one_le_iff_ne_zero.mpr hK
        have hK10' : K ≤ 10 := by omega
        obtain ⟨ps₁, sp₁, w₁, n₁, s₁, i₁, hr₁, hnd₁, hw₁, hsp₁, hlt₁, hwn₁,
          hm₁, hf₁, hnle₁, hpre₁⟩ :=
          ih hK1 hK10' ps sp w n s hr hnd hw hsp hlt hwn
        obtain ⟨ps₂, sp₂, w₂, n₂, s₂, i₂, hr₂, hnd₂, hw₂, hsp₂, hlt₂, hwn₂,
          hm₂, hf₂, hnle₂, hpre₂⟩ :=
          ih hK1 hK10' ps₁ sp₁ w₁ n₁ s₁ hr₁ hnd₁ hw₁ hsp₁ hlt₁ hwn₁
        have hm₁₂ : (i₁, K) ∈ ps₂ := hpre₂ _ hm₁
        have hne : i₁ ≠ i₂ := fun he => hf₂ (by
          rw [← he]
          exact List.mem_map_of_mem Prod.fst hm₁)
        have hmc := mergeCycle ps₂ sp₂ w₂ n₂ s₂ i₁ i₂ K hr₂ hnd₂ hw₂ hsp₂
          (by omega) hne hm₁₂ hm₂
        have hminK : min K MAX_LEVEL = K := by
          simp only [MAX_LEVEL]
          omega
        rw [hminK] at hmc
        have hCk : (((ps₂.eraseP fun q => q.1 == i₁).eraseP fun q => q.1 == i₂).map
            Prod.fst) = ((ps₂.map Prod.fst).erase i₁).erase i₂ := by
          rw [eraseP_key_map_fst, eraseP_key_map_fst]
        have hCsub : ∀ x, x ∈ (((ps₂.eraseP fun q => q.1 == i₁).eraseP
            fun q => q.1 == i₂).map Prod.fst) → x ∈ ps₂.map Prod.fst := by
          intro x hx
          rw [hCk] at hx
          exact List.erase_subset _ _ (List.erase_subset _ _ hx)
        have hCnd : ((((ps₂.eraseP fun q => q.1 == i₁).eraseP fun q => q.1 == i₂)).map
            Prod.fst).Nodup := by
          rw [hCk]
          exact (hnd₂.erase i₁).erase i₂
        have hrel := releaseCycle
          ((ps₂.eraseP fun q => q.1 == i₁).eraseP fun q => q.1 == i₂)
          [(n₂, K + 1)] ((sp₂.erase i₁).erase i₂ ++ [n₂]) w₂ (n₂ + 1)
          (max s₂ (K + 1)) hmc
          (fun h => hw₂ (hCsub _ h))
          (by
            intro h
            have : w₂ = n₂ := List.mem_singleton.mp h
            omega)
          (by
            intro hm
            rcases List.mem_append.mp hm with h1 | h2
            · have h3 : n₂ + 1 ∈ sp₂ := List.erase_subset _ _ (List.erase_subset _ _ h1)
              have := hlt₂ _ (hsp₂.mem_iff.mp h3)
              omega
            · have : n₂ + 1 = n₂ := List.mem_singleton.mp h2
              omega)
          (by omega)
        have hkeys : ((((ps₂.eraseP fun q => q.1 == i₁).eraseP fun q => q.1 == i₂)
            ++ (w₂, 1) :: [(n₂, K + 1)]).map Prod.fst)
            = (((ps₂.eraseP fun q => q.1 == i₁).eraseP fun q => q.1 == i₂).map
              Prod.fst) ++ [w₂, n₂] := by
          rw [List.map_append]
          rfl
        refine ⟨((ps₂.eraseP fun q => q.1 == i₁).eraseP fun q => q.1 == i₂)
            ++ (w₂, 1) :: [(n₂, K + 1)],
          ((sp₂.erase i₁).erase i₂ ++ [n₂]) ++ [w₂], n₂ + 1, n₂ + 2,
          max s₂ (K + 1), n₂, hrel, ?_, ?_, ?_, ?_, by omega, ?_, ?_, by omega, ?_⟩
        · rw [hkeys]
          refine hCnd.append ?_ ?_
          · refine List.nodup_cons.mpr ⟨?_, List.nodup_singleton n₂⟩
            intro hmem
            have : w₂ = n₂ := List.mem_singleton.mp hmem
            omega
          · intro a ha hb
            rcases List.mem_cons.mp hb with rfl | hb2
            · exact hw₂ (hCsub a ha)
            · have : a = n₂ := List.mem_singleton.mp hb2
              rw [this] at ha
              exact absurd (hlt₂ n₂ (hCsub n₂ ha)) (lt_irrefl n₂)
        · rw [hkeys]
          intro hm
          rcases List.mem_append.mp hm with h1 | h2
          · have := hlt₂ _ (hCsub _ h1)
            omega
          · rcases List.mem_cons.mp h2 with he | h3
            · omega
            · have : n₂ + 1 = n₂ := List.mem_singleton.mp h3
              omega
        · rw [hkeys]
          have h1 : ((sp₂.erase i₁).erase i₂).Perm
              ((((ps₂.eraseP fun q => q.1 == i₁).eraseP fun q => q.1 == i₂)).map
                Prod.fst) := by
            rw [hCk]
            exact (hsp₂.erase i₁).erase i₂
          have h2 := (h1.append (List.Perm.refl [n₂])).append (List.Perm.refl [w₂])
          have h3 : (((((ps₂.eraseP fun q => q.1 == i₁).eraseP fun q => q.1 == i₂)).map
              Prod.fst ++ [n₂]) ++ [w₂]).Perm
              ((((ps₂.eraseP fun q => q.1 == i₁).eraseP fun q => q.1 == i₂)).map
                Prod.fst ++ [w₂, n₂]) := by
            rw [List.append_assoc]
            exact List.Perm.append_left _ (List.Perm.swap w₂ n₂ [])
          exact h2.trans h3
        · intro x hx
          rw [hkeys] at hx
          rcases List.mem_append.mp hx with h1 | h2
          · have := hlt₂ _ (hCsub _ h1)
            omega
          · rcases List.mem_cons.mp h2 with rfl | h3
            · omega
            · have : x = n₂ := List.mem_singleton.mp h3
              omega
        · exact List.mem_append_right _ (List.mem_cons_of_mem _ (List.mem_cons_self _ _))
        · intro hmem
          have := hlt _ hmem
          omega
        · intro e he
          have he₁ : e ∈ ps₁ := hpre₁ e he
          have he₂ : e ∈ ps₂ := hpre₂ e he₁
          have hei₁ : e.1 ≠ i₁ := fun hh => hf₁ (by
            rw [← hh]
            exact List.mem_map_of_mem Prod.fst he)
          have hei₂ : e.1 ≠ i₂ := fun hh => hf₂ (by
            rw [← hh]
            exact List.mem_map_of_mem Prod.fst he₁)
          exact List.mem_append_left _ (mem_eraseP_key_of_ne _ i₂ e
            (mem_eraseP_key_of_ne _ i₁ e he₂ hei₁) hei₂)

/-- C3 counterexample: a reachable frame-boundary state whose score exceeds
`MAX_LEVEL`.  Building two level-10 pieces by repeated releases and merges
and then merging them sets `score = max score (level + 1) = 11`, while the
resulting piece itself is clamped to level 10. -/
theorem score_eleven_reachable : ∃ g, Reachable g ∧ 10 < g.score := by
  have h0 : Reachable (readyG [] [] [] 0 1 1) := by
    have he : initGame = readyG [] [] [] 0 1 1 := rfl
    rw [← he]
    exact Reachable.init
  obtain ⟨ps₁, sp₁, w₁, n₁, s₁, i₁, hr₁, hnd₁, hw₁, hsp₁, hlt₁, hwn₁,
    hm₁, hf₁, hnle₁, hpre₁⟩ :=
    buildAux 10 (by omega) (by omega) [] [] 0 1 1 h0 List.nodup_nil
      (List.not_mem_nil 0) (List.Perm.refl _) (by intro x hx; cases hx) (by omega)
  obtain ⟨ps₂, sp₂, w₂, n₂, s₂, i₂, hr₂, hnd₂, hw₂, hsp₂, hlt₂, hwn₂,
    hm₂, hf₂, hnle₂, hpre₂⟩ :=
    buildAux 10 (by omega) (by omega) ps₁ sp₁ w₁ n₁ s₁ hr₁ hnd₁ hw₁ hsp₁ hlt₁ hwn₁
  have hm₁₂ : (i₁, 10) ∈ ps₂ := hpre₂ _ hm₁
  have hne : i₁ ≠ i₂ := fun he => hf₂ (by
    rw [← he]
    exact List.mem_map_of_mem Prod.fst hm₁)
  have hmc := mergeCycle ps₂ sp₂ w₂ n₂ s₂ i₁ i₂ 10 hr₂ hnd₂ hw₂ hsp₂
    (by omega) hne hm₁₂ hm₂
  refine ⟨_, hmc, ?_⟩
  show 10 < max s₂ (min 10 MAX_LEVEL + 1)
  simp only [MAX_LEVEL]
  omega
